import Mathlib

/-!
# MiniAsio: the session registry and the reactor loop

A shallow embedding of `src/MiniAsio.hpp` (class `Listener`) and the properties of its
registry (`createSession`, `destroySession`) and of one iteration of `pollLoop`.

Modelling conventions

* `std::vector` is a `List`; an access outside the vector (undefined behaviour in C++) makes the
  operation return `none`.
* Socket handles are `Int` (`accept` returns a negative value on failure); event masks are `Nat`
  bit masks; positions and stored indices are `Nat` (counts are bounded by the number of open
  descriptors, far below `2^31`, so the `size_t`/`int` conversions of the source are exact).
* The calls the code makes to the operating system and to the session hooks are recorded, in
  order, in the ghost field `Listener.log`.
* What the environment answers is given by an `Env`: the byte count of every `recv` call and
  whether a `dataReceived` hook calls `closeConnection`.  Both may depend on the moment of the
  call (the length of the log) and on the handle.
-/

set_option autoImplicit false

namespace MiniAsio

/-! ## Data model -/

/-- The `pollfd` record: handle, requested mask `events`, observed mask `revents`. -/
structure PollFd where
  fd : Int
  events : Nat
  revents : Nat
deriving DecidableEq

/-- The registry part of `ISession`: its socket handle and its stored index. -/
structure ISession where
  socket : Int
  index : Nat
deriving DecidableEq

/-- The calls made by the listener, as they appear in the source. -/
inductive Event where
  /-- The call `accept(listenSocketHandle, ...)` and the value it returned. -/
  | accept (result : Int)
  /-- The hook `session->sessionCreated()`, with the two vectors as they are during the call. -/
  | sessionCreated (session : ISession) (sessions : List ISession) (pollDescriptors : List PollFd)
  /-- The call `recv(fd, ...)` and the value it returned. -/
  | recv (fd : Int) (received : Int)
  /-- The hook `session.dataReceived(span(buffer.data(), received))`. -/
  | dataReceived (session : ISession) (received : Int)
  /-- The call `close(fd)`. -/
  | close (fd : Int)
  /-- The session object is released: `pop_back` drops the owning pointer of this session. -/
  | sessionDestroyed (session : ISession)
deriving DecidableEq

/-- The state of a `Listener`: both vectors, the listening handle, and the ghost log. -/
structure Listener where
  sessions : List ISession
  listenSocketHandle : Int
  pollDescriptors : List PollFd
  log : List Event
deriving DecidableEq

/-- The answers of the environment during a scan. `recv t fd` is the value returned by the
`recv` call on `fd` issued when the log has length `t`; `closes t fd` tells whether the
`dataReceived` hook of the session with handle `fd`, entered when the log has length `t`,
calls `closeConnection()` (once). -/
structure Env where
  recv : Nat → Int → Int
  closes : Nat → Int → Bool

/-- The constant `PollInFlag = POLLIN`; `POLLIN` is `0x001` in `<poll.h>`. -/
def PollInFlag : Nat := 1

/-- Append one event to the log. -/
def Listener.emit (st : Listener) (e : Event) : Listener :=
  { st with log := st.log ++ [e] }

/-! ## Constructor -/

/-- The conversion `int16_t(x)`: keep the low 16 bits, read as a signed value. -/
def toInt16 (x : Int) : Int :=
  if x % 65536 < 32768 then x % 65536 else x % 65536 - 65536

/-- The value stored in `serverAddress.sin_port` (an unsigned 16-bit field):
`(port >> 8) + int16_t(port << 8)`, computed in `int` and reduced modulo `2^16` by the
assignment. -/
def sinPort (port : Nat) : Int :=
  (((port >>> 8 : Nat) : Int) + toInt16 ((port <<< 8 : Nat) : Int)) % 65536

/-- The registry right after the constructor: no session, the listening descriptor in slot 0. -/
def Listener.construct (listenSocketHandle : Int) : Listener :=
  { sessions := []
    listenSocketHandle := listenSocketHandle
    pollDescriptors := [{ fd := listenSocketHandle, events := PollInFlag, revents := 0 }]
    log := [] }

/-! ## Registry operations -/

/-- The method `Listener::createSession`: `setup`, then the hook `sessionCreated`, then
`sessions.emplace_back`, then `pollDescriptors.push_back`. -/
def createSession (st : Listener) (socket : Int) : Listener :=
  let session : ISession := { socket := socket, index := st.sessions.length }
  let st1 := st.emit (Event.sessionCreated session st.sessions st.pollDescriptors)
  let st2 := { st1 with sessions := st1.sessions ++ [session] }
  let descriptor : PollFd := { fd := socket, events := PollInFlag, revents := 0 }
  { st2 with pollDescriptors := st2.pollDescriptors ++ [descriptor] }

/-- The method `Listener::destroySession`. `none` stands for an access outside a vector. -/
def destroySession (st : Listener) (index : Nat) : Option Listener :=
  match st.sessions[index]? with
  | none => none
  | some removed =>
    let st1 := st.emit (Event.close removed.socket)
    if index = st1.sessions.length - 1 then
      if st1.pollDescriptors.length = 0 then none
      else
        some { st1 with
          sessions := st1.sessions.dropLast
          pollDescriptors := st1.pollDescriptors.dropLast
          log := st1.log ++ [Event.sessionDestroyed removed] }
    else
      match st1.sessions.getLast?, st1.pollDescriptors.getLast? with
      | some last, some lastDescriptor =>
        if index + 1 < st1.pollDescriptors.length then
          some { st1 with
            sessions := (st1.sessions.set index { last with index := removed.index }).dropLast
            pollDescriptors := (st1.pollDescriptors.set (index + 1) lastDescriptor).dropLast
            log := st1.log ++ [Event.sessionDestroyed removed] }
        else none
      | _, _ => none

/-! ## One iteration of `pollLoop` -/

/-- The accept loop (`do ... while (true)`). `results` are the successive return values of
`accept`; once they are used up `accept` fails with `-1`. -/
def acceptDrain : List Int → Listener → Listener
  | [], st => st.emit (Event.accept (-1))
  | newDescriptor :: rest, st =>
    let st1 := st.emit (Event.accept newDescriptor)
    if newDescriptor < 0 then st1
    else acceptDrain rest (createSession st1 newDescriptor)

/-- The body of the session scan for position `i`, followed by the `i++` of the loop header:
the result is the next value of `i` and the next state. `none` stands for an access outside
a vector. In the branch `received == 0` the source does `i--; destroySession(i); continue;`,
so the next value is `(i - 1) + 1`. The loop starts at `i = 1` and never goes below, so
`i - 1` is the subtraction of the source. -/
def scanBody (env : Env) (i : Nat) (st : Listener) : Option (Nat × Listener) :=
  match st.pollDescriptors[i]? with
  | none => none
  | some descriptor =>
    if descriptor.revents ≠ 0 then
      match st.sessions[i - 1]? with
      | none => none
      | some session =>
        let received := env.recv st.log.length session.socket
        let st1 := st.emit (Event.recv session.socket received)
        if received > 0 then
          let closing := env.closes st1.log.length session.socket
          let st2 := st1.emit (Event.dataReceived session received)
          if closing then
            -- `closeConnection()` is `listener->destroySession(index)` with the stored index
            match destroySession st2 session.index with
            | none => none
            | some st3 => some (i + 1, st3)
          else some (i + 1, st2)
        else if received = 0 then
          match destroySession st1 (i - 1) with
          | none => none
          | some st2 => some (i - 1 + 1, st2)
        else some (i + 1, st1)
    else some (i + 1, st)

/-- The session scan `for (...; i < pollDescriptors.size(); i++)` from a given `i`, with `fuel`
bounding the number of loop tests. `none` stands for an access outside a vector or for used up
fuel. -/
def scanLoop (env : Env) : Nat → Nat → Listener → Option Listener
  | 0, _, _ => none
  | fuel + 1, i, st =>
    if i < st.pollDescriptors.length then
      match scanBody env i st with
      | none => none
      | some (i', st') => scanLoop env fuel i' st'
    else some st

/-- The session scan of one iteration, from `i = 1`. -/
def scan (env : Env) (st : Listener) : Option Listener :=
  scanLoop env st.pollDescriptors.length 1 st

/-- The effect of a successful `poll`: every `revents` field is overwritten with the observed
mask of its position. -/
def setRevents (obs : Nat → Nat) : Nat → List PollFd → List PollFd
  | _, [] => []
  | k, d :: ds => { d with revents := obs k } :: setRevents obs (k + 1) ds

/-- The return value of a successful `poll`: the number of descriptors with a non-zero
`revents`. -/
def eventCount (ds : List PollFd) : Nat :=
  (ds.filter (fun d => d.revents ≠ 0)).length

/-- The assignment `pollDescriptors[0].revents = 0`. -/
def clearListenRevents (st : Listener) : Option Listener :=
  match st.pollDescriptors with
  | [] => none
  | d :: ds => some { st with pollDescriptors := { d with revents := 0 } :: ds }

/-- The listening-descriptor part of an iteration (lines 132 to 142). -/
def handleListen (results : List Int) (st : Listener) : Option Listener :=
  match st.pollDescriptors[0]? with
  | none => none
  | some listenDescriptor =>
    if listenDescriptor.revents ≠ 0 then
      if listenDescriptor.revents = PollInFlag then
        clearListenRevents (acceptDrain results st)
      else clearListenRevents st
    else some st

/-- How one iteration of `while (!done)` ends. -/
inductive Cycle where
  /-- The call `poll` failed and `pollLoop` returned. -/
  | returned (st : Listener)
  /-- The body ran to its end. -/
  | completed (st : Listener)
  /-- An access outside a vector. -/
  | undefined
deriving DecidableEq

/-- One iteration of the loop of `pollLoop`. `obs = none` is a failed `poll`; `obs = some o`
is a `poll` that reports the mask `o k` for the descriptor in position `k`. -/
def pollCycle (env : Env) (obs : Option (Nat → Nat)) (results : List Int) (st : Listener) :
    Cycle :=
  match obs with
  | none => Cycle.returned st
  | some o =>
    let st1 := { st with pollDescriptors := setRevents o 0 st.pollDescriptors }
    if eventCount st1.pollDescriptors > 0 then
      match handleListen results st1 with
      | none => Cycle.undefined
      | some st2 =>
        match scan env st2 with
        | none => Cycle.undefined
        | some st3 => Cycle.completed st3
    else Cycle.completed st1

/-! ## The index invariant -/

/-- The index invariant: one descriptor more than sessions, and for every slot `i` the stored
index is `i` and the descriptor in position `i + 1` carries the handle of the session. -/
def IndexInvariant (st : Listener) : Prop :=
  st.pollDescriptors.length = st.sessions.length + 1 ∧
  ∀ i, i < st.sessions.length →
    (st.sessions[i]?).map ISession.index = some i ∧
    (st.pollDescriptors[i + 1]?).map PollFd.fd = (st.sessions[i]?).map ISession.socket

instance (st : Listener) : Decidable (IndexInvariant st) := by
  unfold IndexInvariant; infer_instance


/-! ## Auxiliary definitions for the statements -/

/-- One registry operation: `Insert(handle)` is `createSession`, `Remove(index)` is
`destroySession`. -/
inductive Op where
  | insert (handle : Int)
  | remove (index : Nat)
deriving DecidableEq

/-- Apply one registry operation. -/
def applyOp (st : Listener) : Op → Option Listener
  | Op.insert handle => some (createSession st handle)
  | Op.remove index => destroySession st index

/-- Apply a sequence of registry operations, left to right. -/
def applyOps : Listener → List Op → Option Listener
  | st, [] => some st
  | st, op :: ops =>
    match applyOp st op with
    | none => none
    | some st' => applyOps st' ops

/-- Every `Remove(index)` of the sequence has `index` below the session count at that moment,
where `n` is the session count before the sequence. -/
def validOps : Nat → List Op → Bool
  | _, [] => true
  | n, Op.insert _ :: ops => validOps (n + 1) ops
  | n, Op.remove index :: ops => decide (index < n) && validOps (n - 1) ops

/-- The handles on which `recv` was called, in the order of the calls. -/
def readHandles (log : List Event) : List Int :=
  log.filterMap (fun e => match e with
    | Event.recv fd _ => some fd
    | _ => none)

/-- The handles of the sessions whose descriptor has a non-empty observed mask, in slot
order (session `i` is paired with descriptor `i + 1`). -/
def readyHandles (st : Listener) : List Int :=
  ((st.sessions.zip st.pollDescriptors.tail).filter (fun p => p.2.revents ≠ 0)).map
    (fun p => p.1.socket)

/-- The handles of the descriptors from position `i` on that have a non-empty observed mask. -/
def pendingHandles (i : Nat) (st : Listener) : List Int :=
  ((st.pollDescriptors.drop i).filter (fun d => d.revents ≠ 0)).map PollFd.fd

/-- The event concerns the connection with handle `fd`. -/
def Event.onHandle (fd : Int) : Event → Bool
  | Event.accept result => result == fd
  | Event.sessionCreated session _ _ => session.socket == fd
  | Event.recv fd' _ => fd' == fd
  | Event.dataReceived session _ => session.socket == fd
  | Event.close fd' => fd' == fd
  | Event.sessionDestroyed session => session.socket == fd

/-- The event is one of the session scan (a read, a data event, a close or a release), not
one of the accept loop. -/
def Event.isScanEvent : Event → Bool
  | Event.accept _ => false
  | Event.sessionCreated _ _ _ => false
  | _ => true

/-- The sessions passed to `sessionCreated`, in the order of the calls. -/
def createdSessions (log : List Event) : List ISession :=
  log.filterMap (fun e => match e with
    | Event.sessionCreated session _ _ => some session
    | _ => none)

/-- The values returned by the calls of `accept`, in the order of the calls. -/
def acceptResults (log : List Event) : List Int :=
  log.filterMap (fun e => match e with
    | Event.accept result => some result
    | _ => none)

/-- The handles that the accept loop registers: the results of `accept` up to the first
negative one. -/
def accepted : List Int → List Int
  | [] => []
  | r :: rs => if r < 0 then [] else r :: accepted rs

/-- The result of the call of `accept` that ends the accept loop: the first negative result,
or `-1` once the results are used up. -/
def acceptFailure : List Int → Int
  | [] => -1
  | r :: rs => if r < 0 then r else acceptFailure rs

/-- Sessions with the given handles and the stored indices `n`, `n + 1`, ... -/
def insertedSessions : Nat → List Int → List ISession
  | _, [] => []
  | n, h :: hs => { socket := h, index := n } :: insertedSessions (n + 1) hs

/-- The descriptor that `createSession` appends for a handle. -/
def newDescriptor (h : Int) : PollFd :=
  { fd := h, events := PollInFlag, revents := 0 }

/-- The shutdown of the connection `fd` as seen in the events `new` of a cycle: exactly one
`close(fd)`, issued right after the zero-length read and right before the session is released,
and no data event for a session with this handle. -/
def ShutDownOnce (fd : Int) (new : List Event) : Prop :=
  (∀ s r, Event.dataReceived s r ∈ new → s.socket ≠ fd) ∧
  new.count (Event.close fd) = 1 ∧
  ∃ before after session, session.socket = fd ∧
    new = before ++ [Event.recv fd 0, Event.close fd, Event.sessionDestroyed session] ++ after

/-- The registry holds neither a session nor a descriptor with handle `fd`. -/
def Unregistered (fd : Int) (st : Listener) : Prop :=
  (∀ s ∈ st.sessions, s.socket ≠ fd) ∧ (∀ d ∈ st.pollDescriptors, d.fd ≠ fd)


/-! ## Example data -/

/-- The registry after inserting the sessions A, B, C with the handles 10, 11, 12. -/
def exampleABC : Listener :=
  createSession (createSession (createSession (Listener.construct 3) 10) 11) 12

/-- The registry `exampleABC` after a `poll` that reports `PollInFlag` for every session and
nothing for the listening descriptor. -/
def exampleReady : Listener :=
  { exampleABC with
    pollDescriptors := setRevents (fun k => if k = 0 then 0 else PollInFlag) 0
      exampleABC.pollDescriptors }

/-- Every read returns 4 bytes; the session with handle 10 closes itself in `dataReceived`. -/
def closingEnv : Env :=
  { recv := fun _ _ => 4, closes := fun _ fd => fd == 10 }

/-- The read on handle 10 returns 0, every other read returns 4 bytes; no session closes
itself. -/
def eofEnv : Env :=
  { recv := fun _ fd => if fd = 10 then 0 else 4, closes := fun _ _ => false }

/-- The hook call recorded by the event finds the session registered: the session vector
holds the session at its stored index and the descriptor vector holds a descriptor with its
handle one position further. Events other than `sessionCreated` are not concerned. -/
def RegisteredAtCall : Event → Prop
  | Event.sessionCreated session sessions pollDescriptors =>
    sessions[session.index]? = some session ∧
    (pollDescriptors[session.index + 1]?).map PollFd.fd = some session.socket
  | _ => True


/-! ## Vector lemmas -/

theorem set_last_dropLast {α : Type} (l : List α) (x : α) :
    (l.set (l.length - 1) x).dropLast = l.dropLast := by
  apply List.ext_getElem?
  intro j
  rw [List.getElem?_dropLast, List.getElem?_dropLast, List.length_set]
  split
  · next h => rw [List.getElem?_set_ne (by omega)]
  · rfl

theorem destroySession_eq (st : Listener) (index : Nat)
    (hlen : st.pollDescriptors.length = st.sessions.length + 1)
    (hi : index < st.sessions.length) :
    ∃ removed last lastDescriptor,
      st.sessions[index]? = some removed ∧
      st.sessions[st.sessions.length - 1]? = some last ∧
      st.pollDescriptors[st.sessions.length]? = some lastDescriptor ∧
      destroySession st index = some
        { sessions := (st.sessions.set index { last with index := removed.index }).dropLast
          listenSocketHandle := st.listenSocketHandle
          pollDescriptors := (st.pollDescriptors.set (index + 1) lastDescriptor).dropLast
          log := st.log ++ [Event.close removed.socket, Event.sessionDestroyed removed] } := by
  obtain ⟨removed, hrem⟩ : ∃ r, st.sessions[index]? = some r :=
    ⟨_, List.getElem?_eq_getElem hi⟩
  obtain ⟨last, hlast⟩ : ∃ r, st.sessions[st.sessions.length - 1]? = some r :=
    ⟨_, List.getElem?_eq_getElem (by omega)⟩
  obtain ⟨lastD, hlastD⟩ : ∃ r, st.pollDescriptors[st.sessions.length]? = some r :=
    ⟨_, List.getElem?_eq_getElem (by omega)⟩
  refine ⟨removed, last, lastD, hrem, hlast, hlastD, ?_⟩
  have hgl : st.sessions.getLast? = some last := by
    rw [List.getLast?_eq_getElem?]; exact hlast
  have hgd : st.pollDescriptors.getLast? = some lastD := by
    rw [List.getLast?_eq_getElem?, hlen]; simpa using hlastD
  unfold destroySession
  simp only [hrem, Listener.emit]
  by_cases hlastIdx : index = st.sessions.length - 1
  · rw [if_pos hlastIdx, if_neg (by omega)]
    have h1 : index + 1 = st.pollDescriptors.length - 1 := by omega
    subst hlastIdx
    rw [h1, set_last_dropLast, set_last_dropLast]
    simp
  · rw [if_neg hlastIdx]
    simp only [hgl, hgd]
    rw [if_pos (by omega)]
    simp


/-! ## The invariant under the registry operations -/

theorem construct_invariant (h : Int) : IndexInvariant (Listener.construct h) := by
  refine ⟨rfl, ?_⟩
  intro i hi
  simp [Listener.construct] at hi

theorem createSession_invariant (st : Listener) (h : Int) (hinv : IndexInvariant st) :
    IndexInvariant (createSession st h) := by
  obtain ⟨hlen, hslot⟩ := hinv
  refine ⟨by simp [createSession, Listener.emit, hlen], ?_⟩
  intro i hi
  simp only [createSession, Listener.emit, List.length_append, List.length_singleton] at hi ⊢
  by_cases hlt : i < st.sessions.length
  · rw [List.getElem?_append_left hlt, List.getElem?_append_left (by omega)]
    exact hslot i hlt
  · have hieq : i = st.sessions.length := by omega
    subst hieq
    rw [List.getElem?_concat_length, ← hlen, List.getElem?_concat_length]
    simp

theorem destroySession_invariant (st : Listener) (index : Nat) (hinv : IndexInvariant st)
    (hi : index < st.sessions.length) :
    ∃ st', destroySession st index = some st' ∧ IndexInvariant st' ∧
      st'.sessions.length + 1 = st.sessions.length := by
  obtain ⟨hlen, hslot⟩ := hinv
  obtain ⟨removed, last, lastD, hrem, hlast, hlastD, heq⟩ := destroySession_eq st index hlen hi
  refine ⟨_, heq, ⟨?_, ?_⟩, ?_⟩
  · simp only [List.length_dropLast, List.length_set]; omega
  · intro j hj
    simp only [List.length_dropLast, List.length_set] at hj
    simp only [List.getElem?_dropLast, List.length_set, List.getElem?_set]
    have h1 := hslot index hi
    have h2 := hslot (st.sessions.length - 1) (by omega)
    have h3 := hslot j (by omega)
    rw [hrem] at h1
    rw [hlast] at h2
    have hl : st.sessions.length - 1 + 1 = st.sessions.length := by omega
    rw [hl, hlastD] at h2
    simp only [Option.map_some', Option.some.injEq] at h1 h2
    have hj' : j + 1 < st.pollDescriptors.length - 1 := by omega
    have hi' : index + 1 < st.pollDescriptors.length := by omega
    simp only [hj, hj', hi, hi', if_true]
    by_cases hji : index = j
    · subst hji
      simp [h1.1, h2.2]
    · have hji' : ¬ (index + 1 = j + 1) := by omega
      simp only [hji, hji', if_false]
      exact h3
  · simp only [List.length_dropLast, List.length_set]; omega


/-! ## Swap-removal on a vector -/

theorem dropLast_cons_of_ne_nil {α : Type} (a : α) (t : List α) (h : t ≠ []) :
    (a :: t).dropLast = a :: t.dropLast := by
  cases t with
  | nil => exact absurd rfl h
  | cons b t => rfl

theorem getLast?_cons_of_ne_nil {α : Type} (a : α) (t : List α) (h : t ≠ []) :
    (a :: t).getLast? = t.getLast? := by
  cases t with
  | nil => exact absurd rfl h
  | cons b t => exact List.getLast?_cons_cons

theorem eq_dropLast_append_of_getLast? {α : Type} (t : List α) (x : α)
    (h : t.getLast? = some x) : t = t.dropLast ++ [x] := by
  have hne : t ≠ [] := by
    intro hnil
    rw [hnil] at h
    simp at h
  have h2 := List.dropLast_concat_getLast hne
  rw [List.getLast?_eq_getLast t hne] at h
  simp only [Option.some.injEq] at h
  rw [h] at h2
  exact h2.symm

theorem swapRemove_decomp {α : Type} (l : List α) (i : Nat) (d x y : α)
    (hd : l[i]? = some d) (hx : l.getLast? = some x) :
    ∃ A R R', l = A ++ d :: R ∧ A.length = i ∧
      (l.set i x).dropLast = A ++ R' ∧ R'.Perm R ∧
      ∃ R'', (l.set i y).dropLast = A ++ R'' ∧ R''.length = R.length := by
  induction l generalizing i with
  | nil => simp at hd
  | cons a t ih =>
    cases i with
    | zero =>
      simp only [List.getElem?_cons_zero, Option.some.injEq] at hd
      subst hd
      by_cases ht : t = []
      · subst ht
        exact ⟨[], [], [], rfl, rfl, rfl, List.Perm.refl _, [], rfl, rfl⟩
      · have hx' : t.getLast? = some x := by
          rw [getLast?_cons_of_ne_nil a t ht] at hx
          exact hx
        have ht' := eq_dropLast_append_of_getLast? t x hx'
        refine ⟨[], t, x :: t.dropLast, rfl, rfl, ?_, ?_, y :: t.dropLast, ?_, ?_⟩
        · simp only [List.set_cons_zero, List.nil_append]
          exact dropLast_cons_of_ne_nil x t ht
        · have h1 : (x :: t.dropLast).Perm (t.dropLast ++ [x]) := by
            exact (List.perm_append_singleton x t.dropLast).symm
          rw [← ht'] at h1
          exact h1
        · simp only [List.set_cons_zero, List.nil_append]
          exact dropLast_cons_of_ne_nil y t ht
        · have hlen : 0 < t.length := List.length_pos.mpr ht
          simp only [List.length_cons, List.length_dropLast]
          omega
    | succ j =>
      simp only [List.getElem?_cons_succ] at hd
      have ht : t ≠ [] := by
        intro hnil
        rw [hnil] at hd
        simp at hd
      have hx' : t.getLast? = some x := by
        rw [getLast?_cons_of_ne_nil a t ht] at hx
        exact hx
      obtain ⟨A, R, R', h1, h2, h3, h4, R'', h5, h6⟩ := ih j hd hx'
      have hne : ∀ z, t.set j z ≠ [] := by
        intro z hz
        have := congrArg List.length hz
        simp only [List.length_set, List.length_nil] at this
        exact ht (List.length_eq_zero.mp this)
      refine ⟨a :: A, R, R', ?_, ?_, ?_, h4, R'', ?_, h6⟩
      · rw [h1]; rfl
      · simp [h2]
      · rw [List.set_cons_succ, dropLast_cons_of_ne_nil a _ (hne x), h3]
        rfl
      · rw [List.set_cons_succ, dropLast_cons_of_ne_nil a _ (hne y), h5]
        rfl


/-- What `destroySession` does to a well-formed registry, in terms of the descriptor vector. -/
theorem destroySession_descriptors (st : Listener) (index : Nat) (hinv : IndexInvariant st)
    (hi : index < st.sessions.length) :
    ∃ st' removed d, destroySession st index = some st' ∧ IndexInvariant st' ∧
      st.sessions[index]? = some removed ∧ st.pollDescriptors[index + 1]? = some d ∧
      st'.log = st.log ++ [Event.close removed.socket, Event.sessionDestroyed removed] ∧
      st'.pollDescriptors.length + 1 = st.pollDescriptors.length ∧
      (d :: st'.pollDescriptors).Perm st.pollDescriptors ∧
      (st'.pollDescriptors.drop (index + 1)).Perm (st.pollDescriptors.drop (index + 2)) ∧
      st'.pollDescriptors.take (index + 1) = st.pollDescriptors.take (index + 1) := by
  obtain ⟨st', hst', hinv', hlen'⟩ := destroySession_invariant st index hinv hi
  obtain ⟨hlen, -⟩ := hinv
  obtain ⟨removed, last, lastD, hrem, hlast, hlastD, heq⟩ := destroySession_eq st index hlen hi
  obtain ⟨d, hd⟩ : ∃ d, st.pollDescriptors[index + 1]? = some d :=
    ⟨_, List.getElem?_eq_getElem (by omega)⟩
  have hgd : st.pollDescriptors.getLast? = some lastD := by
    rw [List.getLast?_eq_getElem?, hlen]; simpa using hlastD
  obtain ⟨A, R, R', h1, h2, h3, h4, -⟩ :=
    swapRemove_decomp st.pollDescriptors (index + 1) d lastD lastD hd hgd
  rw [hst'] at heq
  simp only [Option.some.injEq] at heq
  have hpd : st'.pollDescriptors = A ++ R' := by rw [heq]; exact h3
  have hlog : st'.log = st.log ++ [Event.close removed.socket, Event.sessionDestroyed removed] := by
    rw [heq]
  refine ⟨st', removed, d, hst', hinv', hrem, hd, hlog, ?_, ?_, ?_, ?_⟩
  · have := hinv'.1
    omega
  · rw [hpd, h1]
    exact (List.perm_middle.symm).trans ((h4.cons d).append_left A)
  · rw [hpd, h1]
    have e1 : (A ++ R').drop (index + 1) = R' := by
      rw [← h2]; exact List.drop_left' rfl
    have e2 : (A ++ d :: R).drop (index + 2) = R := by
      have : A ++ d :: R = (A ++ [d]) ++ R := by simp
      rw [this]
      exact List.drop_left' (by simp [h2])
    rw [e1, e2]
    exact h4
  · rw [hpd, h1, ← h2]
    simp


/-! ## One step of the scan on a well-formed registry -/

theorem drop_succ_subperm {α : Type} (l : List α) (i : Nat) :
    (l.drop (i + 1)).Subperm (l.drop i) := by
  have h : l.drop (i + 1) = (l.drop i).drop 1 := by
    rw [List.drop_drop, Nat.add_comm]
  rw [h]
  exact (List.drop_sublist 1 _).subperm

/-- The five ways the body of the scan can go at position `i` of a well-formed registry. -/
theorem scanBody_step (env : Env) (i : Nat) (st : Listener) (hinv : IndexInvariant st)
    (h1 : 1 ≤ i) (hi : i < st.pollDescriptors.length) :
    ∃ d s i' st' evs,
      st.pollDescriptors[i]? = some d ∧ st.sessions[i - 1]? = some s ∧ d.fd = s.socket ∧
      scanBody env i st = some (i', st') ∧ IndexInvariant st' ∧ 1 ≤ i' ∧
      st'.pollDescriptors.length - i' < st.pollDescriptors.length - i ∧
      st'.log = st.log ++ evs ∧
      ((d.revents = 0 ∧ evs = [] ∧ i' = i + 1 ∧ st'.pollDescriptors = st.pollDescriptors) ∨
       (d.revents ≠ 0 ∧ env.recv st.log.length s.socket < 0 ∧
          evs = [Event.recv s.socket (env.recv st.log.length s.socket)] ∧
          i' = i + 1 ∧ st'.pollDescriptors = st.pollDescriptors) ∨
       (d.revents ≠ 0 ∧ 0 < env.recv st.log.length s.socket ∧
          env.closes (st.log.length + 1) s.socket = false ∧
          evs = [Event.recv s.socket (env.recv st.log.length s.socket),
                 Event.dataReceived s (env.recv st.log.length s.socket)] ∧
          i' = i + 1 ∧ st'.pollDescriptors = st.pollDescriptors) ∨
       (d.revents ≠ 0 ∧ 0 < env.recv st.log.length s.socket ∧
          env.closes (st.log.length + 1) s.socket = true ∧
          evs = [Event.recv s.socket (env.recv st.log.length s.socket),
                 Event.dataReceived s (env.recv st.log.length s.socket),
                 Event.close s.socket, Event.sessionDestroyed s] ∧
          i' = i + 1 ∧ (d :: st'.pollDescriptors).Perm st.pollDescriptors ∧
          (st'.pollDescriptors.drop (i + 1)).Subperm (st.pollDescriptors.drop (i + 1))) ∨
       (d.revents ≠ 0 ∧ env.recv st.log.length s.socket = 0 ∧
          evs = [Event.recv s.socket 0, Event.close s.socket, Event.sessionDestroyed s] ∧
          i' = i ∧ (d :: st'.pollDescriptors).Perm st.pollDescriptors ∧
          (st'.pollDescriptors.drop i).Perm (st.pollDescriptors.drop (i + 1)))) := by
  have hlen := hinv.1
  have hi1 : i - 1 + 1 = i := by omega
  have hi2 : i - 1 + 2 = i + 1 := by omega
  have hrecv : ∀ x : Int, ¬ 0 < x → ¬ x = 0 → x < 0 := by intro x h1 h2; omega
  have his : i - 1 < st.sessions.length := by omega
  obtain ⟨d, hd⟩ : ∃ d, st.pollDescriptors[i]? = some d := ⟨_, List.getElem?_eq_getElem hi⟩
  obtain ⟨s, hs⟩ : ∃ s, st.sessions[i - 1]? = some s := ⟨_, List.getElem?_eq_getElem his⟩
  have hslot := hinv.2 (i - 1) his
  rw [hi1, hd, hs] at hslot
  simp only [Option.map_some', Option.some.injEq] at hslot
  obtain ⟨hidx, hfd⟩ := hslot
  refine ⟨d, s, ?_⟩
  by_cases hrev : d.revents = 0
  · refine ⟨i + 1, st, [], hd, hs, hfd, ?_, hinv, by omega, by omega, by simp, ?_⟩
    · simp only [scanBody, hd]
      rw [if_neg (by simpa using hrev)]
    · exact Or.inl ⟨hrev, rfl, rfl, rfl⟩
  · by_cases hpos : 0 < env.recv st.log.length s.socket
    · by_cases hc : env.closes (st.log.length + 1) s.socket = true
      · -- the session closes itself inside `dataReceived`
        have hinv2 : IndexInvariant ((st.emit (Event.recv s.socket
            (env.recv st.log.length s.socket))).emit (Event.dataReceived s
            (env.recv st.log.length s.socket))) := hinv
        obtain ⟨st', removed, d', hst', hinv', hrem, hd', hlog, hl, hperm, hdrop, -⟩ :=
          destroySession_descriptors _ (i - 1) hinv2 his
        have hrem' : s = removed := by
          have : st.sessions[i - 1]? = some removed := hrem
          rw [hs] at this
          exact Option.some.inj this
        have hd'' : d = d' := by
          have : st.pollDescriptors[i - 1 + 1]? = some d' := hd'
          rw [hi1, hd] at this
          exact Option.some.inj this
        subst hrem' hd''
        have hl' : st'.pollDescriptors.length + 1 = st.pollDescriptors.length := hl
        refine ⟨i + 1, st', [Event.recv s.socket (env.recv st.log.length s.socket),
          Event.dataReceived s (env.recv st.log.length s.socket),
          Event.close s.socket, Event.sessionDestroyed s],
          hd, hs, hfd, ?_, hinv', by omega, by omega, ?_, ?_⟩
        · simp only [scanBody, hd, hs]
          rw [if_pos hrev, if_pos hpos]
          have hc2 : env.closes (st.emit (Event.recv s.socket
              (env.recv st.log.length s.socket))).log.length s.socket = true := by
            simpa [Listener.emit] using hc
          rw [if_pos hc2, hidx, hst']
        · rw [hlog]
          simp only [Listener.emit, List.append_assoc]
          rfl
        · refine Or.inr (Or.inr (Or.inr (Or.inl ⟨hrev, hpos, hc, rfl, rfl, hperm, ?_⟩)))
          have hdrop' : (st'.pollDescriptors.drop i).Perm (st.pollDescriptors.drop (i + 1)) := by
            have := hdrop
            rw [hi1, hi2] at this
            exact this
          exact (drop_succ_subperm _ i).trans hdrop'.subperm
      · have hc' : env.closes (st.log.length + 1) s.socket = false := by
          simpa using hc
        refine ⟨i + 1, (st.emit (Event.recv s.socket (env.recv st.log.length s.socket))).emit
            (Event.dataReceived s (env.recv st.log.length s.socket)),
          [Event.recv s.socket (env.recv st.log.length s.socket),
            Event.dataReceived s (env.recv st.log.length s.socket)],
          hd, hs, hfd, ?_, ?_, by omega, ?_, ?_, ?_⟩
        · simp only [scanBody, hd, hs]
          rw [if_pos hrev, if_pos hpos]
          have hc2 : env.closes (st.emit (Event.recv s.socket
              (env.recv st.log.length s.socket))).log.length s.socket = false := by
            simpa [Listener.emit] using hc'
          rw [hc2]
          rfl
        · exact hinv
        · show st.pollDescriptors.length - (i + 1) < st.pollDescriptors.length - i
          omega
        · simp [Listener.emit]
        · exact Or.inr (Or.inr (Or.inl ⟨hrev, hpos, hc', rfl, rfl, rfl⟩))
    · by_cases hzero : env.recv st.log.length s.socket = 0
      · -- end of stream
        have hinv1 : IndexInvariant (st.emit (Event.recv s.socket
            (env.recv st.log.length s.socket))) := hinv
        obtain ⟨st', removed, d', hst', hinv', hrem, hd', hlog, hl, hperm, hdrop, -⟩ :=
          destroySession_descriptors _ (i - 1) hinv1 his
        have hrem' : s = removed := by
          have : st.sessions[i - 1]? = some removed := hrem
          rw [hs] at this
          exact Option.some.inj this
        have hd'' : d = d' := by
          have : st.pollDescriptors[i - 1 + 1]? = some d' := hd'
          rw [hi1, hd] at this
          exact Option.some.inj this
        subst hrem' hd''
        have hl' : st'.pollDescriptors.length + 1 = st.pollDescriptors.length := hl
        refine ⟨i, st', [Event.recv s.socket 0, Event.close s.socket, Event.sessionDestroyed s],
          hd, hs, hfd, ?_, hinv', h1, by omega, ?_, ?_⟩
        · simp only [scanBody, hd, hs]
          rw [if_pos hrev, if_neg hpos, if_pos hzero, hst', hi1]
        · rw [hlog]
          simp only [Listener.emit, List.append_assoc, hzero]
          rfl
        · refine Or.inr (Or.inr (Or.inr (Or.inr ⟨hrev, hzero, ?_, rfl, hperm, ?_⟩)))
          · rfl
          · have := hdrop
            rw [hi1, hi2] at this
            exact this
      · have hneg : env.recv st.log.length s.socket < 0 := hrecv _ hpos hzero
        refine ⟨i + 1, st.emit (Event.recv s.socket (env.recv st.log.length s.socket)),
          [Event.recv s.socket (env.recv st.log.length s.socket)], hd, hs, hfd, ?_, hinv,
          by omega, ?_, rfl, ?_⟩
        · simp only [scanBody, hd, hs]
          rw [if_pos hrev, if_neg hpos, if_neg hzero]
        · show st.pollDescriptors.length - (i + 1) < st.pollDescriptors.length - i
          omega
        · exact Or.inr (Or.inl ⟨hrev, hneg, rfl, rfl, rfl⟩)


/-! ## The scan loop -/

/-- Loop rule for the scan: a property kept by the body holds when the loop ends, and the loop
ends as soon as the fuel exceeds the number of positions left. -/
theorem scanLoop_rule (env : Env) (P : Nat → Listener → Prop)
    (hstep : ∀ i st, P i st → i < st.pollDescriptors.length →
      ∃ i' st', scanBody env i st = some (i', st') ∧ P i' st' ∧
        st'.pollDescriptors.length - i' < st.pollDescriptors.length - i) :
    ∀ fuel i st, P i st → st.pollDescriptors.length - i < fuel →
      ∃ i' st', scanLoop env fuel i st = some st' ∧ P i' st' ∧
        st'.pollDescriptors.length ≤ i' := by
  intro fuel
  induction fuel with
  | zero => intro i st _ h; omega
  | succ fuel ih =>
    intro i st hP hfuel
    by_cases hi : i < st.pollDescriptors.length
    · obtain ⟨i', st', hbody, hP', hdec⟩ := hstep i st hP hi
      obtain ⟨i'', st'', hrun, hP'', hend⟩ := ih i' st' hP' (by omega)
      refine ⟨i'', st'', ?_, hP'', hend⟩
      simp only [scanLoop, hi, if_true, hbody]
      exact hrun
    · refine ⟨i, st, ?_, hP, by omega⟩
      simp only [scanLoop, hi, if_false]

theorem scanLoop_fuel_succ (env : Env) :
    ∀ fuel i st st', scanLoop env fuel i st = some st' →
      scanLoop env (fuel + 1) i st = some st' := by
  intro fuel
  induction fuel with
  | zero => intro i st st' h; simp [scanLoop] at h
  | succ fuel ih =>
    intro i st st' h
    rw [scanLoop] at h
    rw [scanLoop]
    by_cases hi : i < st.pollDescriptors.length
    · rw [if_pos hi] at h ⊢
      cases hb : scanBody env i st with
      | none => rw [hb] at h; simp at h
      | some p =>
        obtain ⟨i', st1⟩ := p
        rw [hb] at h
        simp only at h ⊢
        exact ih i' st1 st' h
    · rw [if_neg hi] at h ⊢
      exact h

theorem scanLoop_fuel_le (env : Env) (fuel fuel' i : Nat) (st st' : Listener)
    (hle : fuel ≤ fuel') (h : scanLoop env fuel i st = some st') :
    scanLoop env fuel' i st = some st' := by
  induction hle with
  | refl => exact h
  | step _ ih => exact scanLoop_fuel_succ env _ i st st' ih

/-- The scan of a well-formed registry, with a property `P` kept by the body. -/
theorem scan_rule (env : Env) (P : Nat → Listener → Prop) (st : Listener)
    (hinv : IndexInvariant st) (h0 : P 1 st)
    (hstep : ∀ i st, IndexInvariant st → 1 ≤ i → P i st → i < st.pollDescriptors.length →
      ∃ i' st', scanBody env i st = some (i', st') ∧ IndexInvariant st' ∧ 1 ≤ i' ∧ P i' st' ∧
        st'.pollDescriptors.length - i' < st.pollDescriptors.length - i) :
    ∃ i' st', scan env st = some st' ∧ IndexInvariant st' ∧ P i' st' ∧
      st'.pollDescriptors.length ≤ i' := by
  have hlen := hinv.1
  obtain ⟨i', st', hrun, ⟨hinv', -, hP'⟩, hend⟩ :=
    scanLoop_rule env (fun i st => IndexInvariant st ∧ 1 ≤ i ∧ P i st)
      (by
        intro i st ⟨h1, h2, h3⟩ hi
        obtain ⟨i', st', hb, h1', h2', h3', hdec⟩ := hstep i st h1 h2 h3 hi
        exact ⟨i', st', hb, ⟨h1', h2', h3'⟩, hdec⟩)
      st.pollDescriptors.length 1 st ⟨hinv, Nat.le_refl 1, h0⟩ (by omega)
  exact ⟨i', st', hrun, hinv', hP', hend⟩


/-! ## Reads and ready sessions -/

theorem drop_eq_cons_of_getElem? {α : Type} (l : List α) (i : Nat) (d : α)
    (h : l[i]? = some d) : l.drop i = d :: l.drop (i + 1) := by
  induction l generalizing i with
  | nil => simp at h
  | cons a t ih =>
    cases i with
    | zero =>
      simp only [List.getElem?_cons_zero, Option.some.injEq] at h
      subst h
      rfl
    | succ j =>
      simp only [List.getElem?_cons_succ] at h
      simpa using ih j h

theorem readHandles_append (l₁ l₂ : List Event) :
    readHandles (l₁ ++ l₂) = readHandles l₁ ++ readHandles l₂ := by
  simp [readHandles, List.filterMap_append]

theorem zip_filter_handles (ss : List ISession) (ds : List PollFd)
    (h : ss.map ISession.socket = ds.map PollFd.fd) :
    ((ss.zip ds).filter (fun p => p.2.revents ≠ 0)).map (fun p => p.1.socket) =
      (ds.filter (fun d => d.revents ≠ 0)).map PollFd.fd := by
  induction ss generalizing ds with
  | nil =>
    cases ds with
    | nil => rfl
    | cons d ds => simp at h
  | cons s ss ih =>
    cases ds with
    | nil => simp at h
    | cons d ds =>
      simp only [List.map_cons, List.cons.injEq] at h
      obtain ⟨h1, h2⟩ := h
      have ih' := ih ds h2
      by_cases hr : d.revents = 0
      · simp only [List.zip_cons_cons, List.filter_cons, hr, ne_eq, not_true_eq_false,
          decide_False, Bool.false_eq_true, if_false]
        simpa using ih'
      · simp only [List.zip_cons_cons, List.filter_cons, hr, ne_eq, not_false_eq_true,
          decide_True, if_true, List.map_cons, h1]
        rw [List.cons.injEq]
        refine ⟨rfl, ?_⟩
        simpa using ih'

/-- In a well-formed registry the session handles are the handles of the descriptors from
position 1 on. -/
theorem invariant_handles (st : Listener) (hinv : IndexInvariant st) :
    st.sessions.map ISession.socket = st.pollDescriptors.tail.map PollFd.fd := by
  obtain ⟨hlen, hslot⟩ := hinv
  apply List.ext_getElem?
  intro j
  simp only [List.getElem?_map, List.getElem?_tail]
  by_cases hj : j < st.sessions.length
  · exact ((hslot j hj).2).symm
  · rw [List.getElem?_eq_none (by omega), List.getElem?_eq_none (by omega)]
    rfl

theorem readyHandles_eq_pendingHandles (st : Listener) (hinv : IndexInvariant st) :
    readyHandles st = pendingHandles 1 st := by
  unfold readyHandles pendingHandles
  rw [zip_filter_handles _ _ (invariant_handles st hinv), List.drop_one]

theorem pendingHandles_perm (i j : Nat) (st st' : Listener)
    (h : (st'.pollDescriptors.drop j).Perm (st.pollDescriptors.drop i)) :
    (pendingHandles j st').Perm (pendingHandles i st) :=
  (h.filter _).map _

theorem pendingHandles_skip (i : Nat) (st : Listener) (d : PollFd)
    (hd : st.pollDescriptors[i]? = some d) (hr : d.revents = 0) :
    pendingHandles i st = pendingHandles (i + 1) st := by
  unfold pendingHandles
  rw [drop_eq_cons_of_getElem? _ i d hd]
  simp [List.filter_cons, hr]

theorem pendingHandles_visit (i : Nat) (st : Listener) (d : PollFd)
    (hd : st.pollDescriptors[i]? = some d) (hr : d.revents ≠ 0) :
    pendingHandles i st = d.fd :: pendingHandles (i + 1) st := by
  unfold pendingHandles
  rw [drop_eq_cons_of_getElem? _ i d hd]
  simp [List.filter_cons, hr]

theorem pendingHandles_of_le (i : Nat) (st : Listener) (h : st.pollDescriptors.length ≤ i) :
    pendingHandles i st = [] := by
  unfold pendingHandles
  rw [List.drop_eq_nil_of_le h]
  rfl


/-! ## A summary of one step of the scan -/

/-- What every step of the scan has in common: the vectors only lose descriptors, the
descriptors still to visit come from those after position `i`, the events of the step concern
the visited session only, and a zero-length read is followed by `close` and the release of
the session, whose descriptor leaves the vector. -/
theorem scanBody_summary (env : Env) (i : Nat) (st : Listener) (hinv : IndexInvariant st)
    (h1 : 1 ≤ i) (hi : i < st.pollDescriptors.length) :
    ∃ d s i' st' evs,
      st.pollDescriptors[i]? = some d ∧ d.fd = s.socket ∧
      scanBody env i st = some (i', st') ∧ IndexInvariant st' ∧ 1 ≤ i' ∧
      st'.pollDescriptors.length - i' < st.pollDescriptors.length - i ∧
      st'.log = st.log ++ evs ∧
      st'.pollDescriptors.Subperm st.pollDescriptors ∧
      (st'.pollDescriptors.drop i').Subperm (st.pollDescriptors.drop (i + 1)) ∧
      (∀ e ∈ evs, e.isScanEvent = true ∧ d.revents ≠ 0 ∧
        ∀ g, e.onHandle g = true → g = s.socket) ∧
      ((evs = [Event.recv s.socket 0, Event.close s.socket, Event.sessionDestroyed s] ∧
          (d :: st'.pollDescriptors).Perm st.pollDescriptors) ∨
        (∀ fd, Event.recv fd 0 ∉ evs)) := by
  obtain ⟨d, s, i', st', evs, hd, -, hfd, hb, hinv', hi', hdec, hlog, hcase⟩ :=
    scanBody_step env i st hinv h1 hi
  refine ⟨d, s, i', st', evs, hd, hfd, hb, hinv', hi', hdec, hlog, ?_⟩
  rcases hcase with ⟨hr, hevs, hi'', hpd⟩ | ⟨hr, hneg, hevs, hi'', hpd⟩ |
    ⟨hr, hpos, -, hevs, hi'', hpd⟩ | ⟨hr, hpos, -, hevs, hi'', hperm, hdrop⟩ |
    ⟨hr, -, hevs, hi'', hperm, hdrop⟩
  · subst hevs hi''
    rw [hpd]
    exact ⟨List.Subperm.refl _, List.Subperm.refl _, by simp, Or.inr (by simp)⟩
  · subst hevs hi''
    rw [hpd]
    refine ⟨List.Subperm.refl _, List.Subperm.refl _, ?_, Or.inr ?_⟩
    · intro e he
      simp only [List.mem_singleton] at he
      subst he
      exact ⟨rfl, hr, by intro g hg; simp only [Event.onHandle, beq_iff_eq] at hg; exact hg.symm⟩
    · intro fd hmem
      simp only [List.mem_singleton, Event.recv.injEq] at hmem
      omega
  · subst hevs hi''
    rw [hpd]
    refine ⟨List.Subperm.refl _, List.Subperm.refl _, ?_, Or.inr ?_⟩
    · intro e he
      simp only [List.mem_cons, List.mem_singleton, List.not_mem_nil, or_false] at he
      rcases he with he | he <;> subst he <;>
        exact ⟨rfl, hr, by intro g hg; simp only [Event.onHandle, beq_iff_eq] at hg; exact hg.symm⟩
    · intro fd hmem
      simp only [List.mem_cons, List.mem_singleton, Event.recv.injEq, List.not_mem_nil,
        or_false, reduceCtorEq] at hmem
      omega
  · subst hevs hi''
    refine ⟨(List.sublist_cons_self d _).subperm.trans hperm.subperm, hdrop, ?_, Or.inr ?_⟩
    · intro e he
      simp only [List.mem_cons, List.mem_singleton, List.not_mem_nil, or_false] at he
      rcases he with he | he | he | he <;> subst he <;>
        exact ⟨rfl, hr, by intro g hg; simp only [Event.onHandle, beq_iff_eq] at hg; exact hg.symm⟩
    · intro fd hmem
      simp only [List.mem_cons, List.mem_singleton, Event.recv.injEq, List.not_mem_nil,
        or_false, reduceCtorEq] at hmem
      omega
  · subst hevs hi''
    refine ⟨(List.sublist_cons_self d _).subperm.trans hperm.subperm, hdrop.subperm, ?_,
      Or.inl ⟨rfl, hperm⟩⟩
    intro e he
    simp only [List.mem_cons, List.mem_singleton, List.not_mem_nil, or_false] at he
    rcases he with he | he | he <;> subst he <;>
      exact ⟨rfl, hr, by intro g hg; simp only [Event.onHandle, beq_iff_eq] at hg; exact hg.symm⟩


/-! ## Zero-length reads -/

theorem nodup_map_of_subperm {α β : Type} (f : α → β) {l₁ l₂ : List α}
    (h : l₁.Subperm l₂) (hn : (l₂.map f).Nodup) : (l₁.map f).Nodup := by
  obtain ⟨l, hp, hs⟩ := h
  exact ((hp.map f).nodup_iff).mp (List.Nodup.sublist (hs.map f) hn)

theorem fd_ne_of_later (ds : List PollFd) (i : Nat) (d : PollFd)
    (hd : ds[i]? = some d) (hn : (ds.map PollFd.fd).Nodup) :
    ∀ d' ∈ ds.drop (i + 1), d'.fd ≠ d.fd := by
  have h1 : ((ds.drop i).map PollFd.fd).Nodup :=
    List.Nodup.sublist ((List.drop_sublist i ds).map _) hn
  rw [drop_eq_cons_of_getElem? ds i d hd, List.map_cons, List.nodup_cons] at h1
  intro d' hd' heq
  exact h1.1 (heq ▸ List.mem_map_of_mem _ hd')

theorem fd_not_mem_of_removed (ds ds' : List PollFd) (d : PollFd)
    (hperm : (d :: ds').Perm ds) (hn : (ds.map PollFd.fd).Nodup) :
    ∀ d' ∈ ds', d'.fd ≠ d.fd := by
  have h1 : ((d :: ds').map PollFd.fd).Nodup := ((hperm.map _).nodup_iff).mpr hn
  rw [List.map_cons, List.nodup_cons] at h1
  intro d' hd' heq
  exact h1.1 (heq ▸ List.mem_map_of_mem _ hd')

theorem onHandle_close_self (fd : Int) : (Event.close fd).onHandle fd = true := by
  simp [Event.onHandle]

theorem onHandle_dataReceived_self (s : ISession) (r : Int) :
    (Event.dataReceived s r).onHandle s.socket = true := by
  simp [Event.onHandle]

theorem onHandle_recv_self (fd r : Int) : (Event.recv fd r).onHandle fd = true := by
  simp [Event.onHandle]

/-- The scan of a well-formed registry with pairwise distinct handles: every zero-length read
shuts the connection down exactly once and unregisters it. -/
theorem scan_zero_read_shutdown (env : Env) (st : Listener) (hinv : IndexInvariant st)
    (hnodup : (st.pollDescriptors.map PollFd.fd).Nodup) :
    ∃ st' new, scan env st = some st' ∧ IndexInvariant st' ∧ st'.log = st.log ++ new ∧
      (∀ e ∈ new, e.isScanEvent = true) ∧
      ∀ fd, Event.recv fd 0 ∈ new → Unregistered fd st' ∧ ShutDownOnce fd new := by
  obtain ⟨i', st', hrun, hinv', ⟨new, hlog, -, hscan, -, hB⟩, -⟩ :=
    scan_rule env
      (fun i st1 => ∃ new, st1.log = st.log ++ new ∧
        (st1.pollDescriptors.map PollFd.fd).Nodup ∧
        (∀ e ∈ new, e.isScanEvent = true) ∧
        (∀ d ∈ st1.pollDescriptors.drop i, ∀ e ∈ new, e.onHandle d.fd = false) ∧
        ∀ fd, Event.recv fd 0 ∈ new →
          (∀ d ∈ st1.pollDescriptors, d.fd ≠ fd) ∧ ShutDownOnce fd new)
      st hinv
      ⟨[], by simp, hnodup, by simp, by simp, by simp⟩
      (by
        intro i st1 h1 h2 ⟨new, hlog, hnd, hscan, hA, hB⟩ hi
        obtain ⟨d, s, i', st', evs, hd, hfd, hb, hinv', hi', hdec, hlog', hsub, hdrop,
          hev, hz⟩ := scanBody_summary env i st1 h1 h2 hi
        have hdmem : d ∈ st1.pollDescriptors.drop i := by
          rw [drop_eq_cons_of_getElem? _ i d hd]
          exact List.mem_cons_self _ _
        have hdmem' : d ∈ st1.pollDescriptors := (List.drop_sublist i _).subset hdmem
        have hlater := fd_ne_of_later _ i d hd hnd
        have hnd' : (st'.pollDescriptors.map PollFd.fd).Nodup :=
          nodup_map_of_subperm _ hsub hnd
        -- the events of the step do not concern another handle
        have hother : ∀ g, g ≠ s.socket → ∀ e ∈ evs, e.onHandle g = false := by
          intro g hg e he
          cases hval : e.onHandle g with
          | false => rfl
          | true => exact absurd ((hev e he).2.2 g hval) hg
        refine ⟨i', st', hb, hinv', hi', ⟨new ++ evs, ?_, hnd', ?_, ?_, ?_⟩, hdec⟩
        · rw [hlog', hlog, List.append_assoc]
        · intro e he
          rcases List.mem_append.mp he with he | he
          · exact hscan e he
          · exact (hev e he).1
        · intro d' hd' e he
          have hd1 : d' ∈ st1.pollDescriptors.drop (i + 1) := hdrop.subset hd'
          have hd0 : d' ∈ st1.pollDescriptors.drop i := by
            rw [drop_eq_cons_of_getElem? _ i d hd]
            exact List.mem_cons_of_mem _ hd1
          rcases List.mem_append.mp he with he | he
          · exact hA d' hd0 e he
          · exact hother d'.fd (by rw [← hfd]; exact hlater d' hd1) e he
        · intro fd hfdmem
          by_cases hold : Event.recv fd 0 ∈ new
          · obtain ⟨hgone, hdata, hcount, pre, post, s0, hs0, hnew⟩ := hB fd hold
            have hne : fd ≠ s.socket := by
              intro heq
              exact hgone d hdmem' (by rw [hfd, heq])
            refine ⟨fun d' hd' => hgone d' (hsub.subset hd'), ?_, ?_, ?_⟩
            · intro s1 r hmem
              rcases List.mem_append.mp hmem with hmem | hmem
              · exact hdata s1 r hmem
              · intro heq
                have := hother fd hne _ hmem
                rw [← heq, onHandle_dataReceived_self] at this
                exact absurd this (by simp)
            · rw [List.count_append, hcount]
              have : Event.close fd ∉ evs := by
                intro hmem
                have := hother fd hne _ hmem
                rw [onHandle_close_self] at this
                exact absurd this (by simp)
              rw [List.count_eq_zero_of_not_mem this]
            · exact ⟨pre, post ++ evs, s0, hs0, by rw [hnew]; simp⟩
          · have hin : Event.recv fd 0 ∈ evs := by
              rcases List.mem_append.mp hfdmem with h | h
              · exact absurd h hold
              · exact h
            rcases hz with ⟨hevs, hperm⟩ | hnone
            · have hfdeq : fd = s.socket := by
                have := (hev _ hin).2.2 fd (onHandle_recv_self fd 0)
                exact this
              subst hfdeq
              have hquiet : ∀ e ∈ new, e.onHandle s.socket = false := by
                intro e he
                have := hA d hdmem e he
                rw [hfd] at this
                exact this
              refine ⟨?_, ?_, ?_, ?_⟩
              · intro d' hd'
                have := fd_not_mem_of_removed _ _ d hperm hnd d' hd'
                rw [hfd] at this
                exact this
              · intro s1 r hmem heq
                rcases List.mem_append.mp hmem with hmem | hmem
                · have := hquiet _ hmem
                  rw [← heq, onHandle_dataReceived_self] at this
                  exact absurd this (by simp)
                · rw [hevs] at hmem
                  simp at hmem
              · rw [List.count_append]
                have : Event.close s.socket ∉ new := by
                  intro hmem
                  have := hquiet _ hmem
                  rw [onHandle_close_self] at this
                  exact absurd this (by simp)
                rw [List.count_eq_zero_of_not_mem this, hevs]
                simp [List.count_cons]
              · exact ⟨new, [], s, rfl, by rw [hevs]; simp⟩
            · exact absurd hin (hnone fd))
  refine ⟨st', new, hrun, hinv', hlog, hscan, ?_⟩
  intro fd hmem
  obtain ⟨hgone, hshut⟩ := hB fd hmem
  refine ⟨⟨?_, hgone⟩, hshut⟩
  intro s hs heq
  have hmem' : s.socket ∈ st'.sessions.map ISession.socket := List.mem_map_of_mem _ hs
  rw [invariant_handles st' hinv'] at hmem'
  obtain ⟨d, hd, hdfd⟩ := List.mem_map.mp hmem'
  exact hgone d (List.mem_of_mem_tail hd) (by rw [hdfd, heq])


/-! ## The poll and the accept loop -/

theorem setRevents_map_fd (obs : Nat → Nat) (k : Nat) (ds : List PollFd) :
    (setRevents obs k ds).map PollFd.fd = ds.map PollFd.fd := by
  induction ds generalizing k with
  | nil => rfl
  | cons d ds ih => simp [setRevents, ih]

/-- The index invariant only looks at the sessions and at the handles of the descriptors. -/
theorem invariant_congr (st st' : Listener) (hs : st'.sessions = st.sessions)
    (hfd : st'.pollDescriptors.map PollFd.fd = st.pollDescriptors.map PollFd.fd)
    (hinv : IndexInvariant st) : IndexInvariant st' := by
  obtain ⟨hlen, hslot⟩ := hinv
  have hl : st'.pollDescriptors.length = st.pollDescriptors.length := by
    have := congrArg List.length hfd
    simpa using this
  refine ⟨by rw [hl, hs]; exact hlen, ?_⟩
  intro i hi
  rw [hs] at hi ⊢
  refine ⟨(hslot i hi).1, ?_⟩
  rw [← List.getElem?_map, hfd, List.getElem?_map]
  exact (hslot i hi).2

theorem acceptDrain_invariant (results : List Int) (st : Listener) (hinv : IndexInvariant st) :
    IndexInvariant (acceptDrain results st) := by
  induction results generalizing st with
  | nil => exact hinv
  | cons r rs ih =>
    simp only [acceptDrain]
    split
    · exact hinv
    · exact ih _ (createSession_invariant _ r hinv)

/-- The accept loop: its events, and what it appends to the two vectors. -/
theorem acceptDrain_spec (results : List Int) (st : Listener) :
    ∃ evs, (acceptDrain results st).log = st.log ++ evs ∧
      (∀ e ∈ evs, e.isScanEvent = false) ∧
      createdSessions evs = insertedSessions st.sessions.length (accepted results) ∧
      acceptResults evs = accepted results ++ [acceptFailure results] ∧
      (acceptDrain results st).sessions =
        st.sessions ++ insertedSessions st.sessions.length (accepted results) ∧
      (acceptDrain results st).pollDescriptors =
        st.pollDescriptors ++ (accepted results).map newDescriptor := by
  induction results generalizing st with
  | nil =>
    refine ⟨[Event.accept (-1)], rfl, ?_, rfl, rfl, ?_, ?_⟩
    · intro e he
      simp only [List.mem_singleton] at he
      subst he
      rfl
    · simp [acceptDrain, Listener.emit, accepted, insertedSessions]
    · simp [acceptDrain, Listener.emit, accepted]
  | cons r rs ih =>
    by_cases hr : r < 0
    · refine ⟨[Event.accept r], ?_, ?_, ?_, ?_, ?_, ?_⟩
      · simp [acceptDrain, hr, Listener.emit]
      · intro e he
        simp only [List.mem_singleton] at he
        subst he
        rfl
      · simp [accepted, hr, createdSessions, insertedSessions]
      · simp [accepted, acceptFailure, hr, acceptResults]
      · simp [acceptDrain, hr, Listener.emit, accepted, insertedSessions]
      · simp [acceptDrain, hr, Listener.emit, accepted]
    · obtain ⟨evs, h1, h2, h3, h4, h5, h6⟩ :=
        ih (createSession (st.emit (Event.accept r)) r)
      have hlen : (createSession (st.emit (Event.accept r)) r).sessions.length =
          st.sessions.length + 1 := by
        simp [createSession, Listener.emit]
      rw [hlen] at h3 h5
      refine ⟨Event.accept r :: Event.sessionCreated ⟨r, st.sessions.length⟩ st.sessions
        st.pollDescriptors :: evs, ?_, ?_, ?_, ?_, ?_, ?_⟩
      · simp only [acceptDrain, hr, if_false]
        rw [h1]
        simp [createSession, Listener.emit]
      · intro e he
        simp only [List.mem_cons] at he
        rcases he with he | he | he
        · subst he; rfl
        · subst he; rfl
        · exact h2 e he
      · simp only [accepted, hr, if_false, insertedSessions]
        simp only [createdSessions, List.filterMap_cons] at h3 ⊢
        rw [h3]
      · simp only [accepted, acceptFailure, hr, if_false]
        simp only [acceptResults, List.filterMap_cons] at h4 ⊢
        rw [h4]
        rfl
      · simp only [acceptDrain, hr, if_false, accepted, insertedSessions]
        rw [h5]
        simp [createSession, Listener.emit]
      · simp only [acceptDrain, hr, if_false, accepted]
        rw [h6]
        simp [createSession, Listener.emit, newDescriptor]


theorem clearListenRevents_invariant (st st' : Listener) (hinv : IndexInvariant st)
    (h : clearListenRevents st = some st') : IndexInvariant st' := by
  unfold clearListenRevents at h
  split at h
  · simp at h
  · next d ds hpd =>
    simp only [Option.some.injEq] at h
    subst h
    exact invariant_congr st _ rfl (by simp [hpd]) hinv

/-- The listening-descriptor part of an iteration on a well-formed registry: the accept loop
runs exactly when the observed mask of slot 0 equals `PollInFlag`; the mask of slot 0 is zero
afterwards. -/
theorem handleListen_spec (results : List Int) (st1 : Listener) (hinv : IndexInvariant st1) :
    ∃ d0 ds st2 evs, st1.pollDescriptors = d0 :: ds ∧
      handleListen results st1 = some st2 ∧ IndexInvariant st2 ∧
      st2.log = st1.log ++ evs ∧ (∀ e ∈ evs, e.isScanEvent = false) ∧
      ((d0.revents = PollInFlag ∧
          st2.pollDescriptors =
            { d0 with revents := 0 } :: (ds ++ (accepted results).map newDescriptor) ∧
          createdSessions evs = insertedSessions st1.sessions.length (accepted results) ∧
          acceptResults evs = accepted results ++ [acceptFailure results]) ∨
       (d0.revents ≠ PollInFlag ∧ evs = [] ∧
          st2.pollDescriptors = { d0 with revents := 0 } :: ds)) := by
  have hlen := hinv.1
  cases hpd : st1.pollDescriptors with
  | nil => rw [hpd] at hlen; simp at hlen
  | cons d0 ds =>
    have h0 : st1.pollDescriptors[0]? = some d0 := by rw [hpd]; simp
    by_cases hr : d0.revents = 0
    · refine ⟨d0, ds, st1, [], rfl, ?_, hinv, by simp, by simp, Or.inr ⟨?_, rfl, ?_⟩⟩
      · simp only [handleListen, h0]
        rw [if_neg (by simpa using hr)]
      · rw [hr]; decide
      · rw [hpd]
        cases d0
        simp only at hr
        subst hr
        rfl
    · by_cases hp : d0.revents = PollInFlag
      · obtain ⟨evs, e1, e2, e3, e4, -, e6⟩ := acceptDrain_spec results st1
        have hpd' : (acceptDrain results st1).pollDescriptors =
            d0 :: (ds ++ (accepted results).map newDescriptor) := by
          rw [e6, hpd]; rfl
        have hclear : clearListenRevents (acceptDrain results st1) =
            some { acceptDrain results st1 with
              pollDescriptors :=
                { d0 with revents := 0 } :: (ds ++ (accepted results).map newDescriptor) } := by
          unfold clearListenRevents
          rw [hpd']
        refine ⟨d0, ds, { acceptDrain results st1 with
              pollDescriptors :=
                { d0 with revents := 0 } :: (ds ++ (accepted results).map newDescriptor) },
          evs, rfl, ?_, ?_, e1, e2, Or.inl ⟨hp, rfl, e3, e4⟩⟩
        · simp only [handleListen, h0]
          rw [if_pos hr, if_pos hp, hclear]
        · exact clearListenRevents_invariant _ _ (acceptDrain_invariant results st1 hinv) hclear
      · have hclear : clearListenRevents st1 =
            some { st1 with pollDescriptors := { d0 with revents := 0 } :: ds } := by
          unfold clearListenRevents
          rw [hpd]
        refine ⟨d0, ds, { st1 with pollDescriptors := { d0 with revents := 0 } :: ds },
          [], rfl, ?_, ?_, by simp, by simp, Or.inr ⟨hp, rfl, rfl⟩⟩
        · simp only [handleListen, h0]
          rw [if_pos hr, if_neg hp, hclear]
        · exact clearListenRevents_invariant _ _ hinv hclear

/-- The scan only touches sessions whose descriptor has a non-empty observed mask: if the
handles of all such descriptors satisfy `S`, every event of the scan concerns a handle that
satisfies `S`. -/
theorem scan_only_ready (env : Env) (st : Listener) (S : Int → Prop)
    (hinv : IndexInvariant st)
    (hS : ∀ d ∈ st.pollDescriptors, d.revents ≠ 0 → S d.fd) :
    ∃ st' new, scan env st = some st' ∧ IndexInvariant st' ∧ st'.log = st.log ++ new ∧
      ∀ e ∈ new, e.isScanEvent = true ∧ ∀ g, e.onHandle g = true → S g := by
  obtain ⟨i', st', hrun, hinv', ⟨new, hlog, -, hev⟩, -⟩ :=
    scan_rule env
      (fun _ st1 => ∃ new, st1.log = st.log ++ new ∧
        (∀ d ∈ st1.pollDescriptors, d.revents ≠ 0 → S d.fd) ∧
        ∀ e ∈ new, e.isScanEvent = true ∧ ∀ g, e.onHandle g = true → S g)
      st hinv ⟨[], by simp, hS, by simp⟩
      (by
        intro i st1 h1 h2 ⟨new, hlog, hS1, hev1⟩ hi
        obtain ⟨d, s, i', st', evs, hd, hfd, hb, hinv', hi', hdec, hlog', hsub, -, hev, -⟩ :=
          scanBody_summary env i st1 h1 h2 hi
        have hdmem : d ∈ st1.pollDescriptors := List.getElem?_mem hd
        refine ⟨i', st', hb, hinv', hi', ⟨new ++ evs, ?_, ?_, ?_⟩, hdec⟩
        · rw [hlog', hlog, List.append_assoc]
        · intro d' hd'
          exact hS1 d' (hsub.subset hd')
        · intro e he
          rcases List.mem_append.mp he with he | he
          · exact hev1 e he
          · refine ⟨(hev e he).1, ?_⟩
            intro g hg
            rw [(hev e he).2.2 g hg, ← hfd]
            exact hS1 d hdmem (hev e he).2.1)
  exact ⟨st', new, hrun, hinv', hlog, hev⟩


/-! ## One iteration of the loop -/

theorem eventCount_pos_of_head (d : PollFd) (ds : List PollFd) (h : d.revents ≠ 0) :
    eventCount (d :: ds) > 0 := by
  simp [eventCount, List.filter_cons, h]

/-- The two ways an iteration with a successful `poll` goes on a well-formed registry: either
no descriptor has an event and nothing happens, or the listening descriptor is handled and
the sessions are scanned. -/
theorem pollCycle_cases (env : Env) (obs : Nat → Nat) (results : List Int) (st : Listener)
    (hinv : IndexInvariant st) :
    ∃ d0 ds, st.pollDescriptors = d0 :: ds ∧
      ((obs 0 = 0 ∧ pollCycle env (some obs) results st =
          Cycle.completed { st with pollDescriptors := setRevents obs 0 st.pollDescriptors }) ∨
       (∃ st2 evs, IndexInvariant st2 ∧ st2.log = st.log ++ evs ∧
          (∀ e ∈ evs, e.isScanEvent = false) ∧
          (∀ st3, scan env st2 = some st3 →
            pollCycle env (some obs) results st = Cycle.completed st3) ∧
          ((obs 0 = PollInFlag ∧
              st2.pollDescriptors = { d0 with revents := 0 } ::
                (setRevents obs 1 ds ++ (accepted results).map newDescriptor) ∧
              createdSessions evs = insertedSessions st.sessions.length (accepted results) ∧
              acceptResults evs = accepted results ++ [acceptFailure results]) ∨
           (obs 0 ≠ PollInFlag ∧ evs = [] ∧
              st2.pollDescriptors = { d0 with revents := 0 } :: setRevents obs 1 ds)))) := by
  have hlen := hinv.1
  cases hpd : st.pollDescriptors with
  | nil => rw [hpd] at hlen; simp at hlen
  | cons d0 ds =>
    refine ⟨d0, ds, rfl, ?_⟩
    have hinv1 : IndexInvariant
        { st with pollDescriptors := setRevents obs 0 st.pollDescriptors } :=
      invariant_congr st _ rfl (setRevents_map_fd obs 0 _) hinv
    have hpd1 : setRevents obs 0 st.pollDescriptors =
        { d0 with revents := obs 0 } :: setRevents obs 1 ds := by
      rw [hpd]; rfl
    by_cases hcount : eventCount (setRevents obs 0 st.pollDescriptors) > 0
    · right
      obtain ⟨d0', ds', st2, evs, e1, e2, e3, e4, e5, e6⟩ :=
        handleListen_spec results _ hinv1
      have e1' : { d0 with revents := obs 0 } :: setRevents obs 1 ds = d0' :: ds' := by
        rw [← hpd1]; exact e1
      simp only [List.cons.injEq] at e1'
      obtain ⟨hd0, hds⟩ := e1'
      subst hd0 hds
      refine ⟨st2, evs, e3, e4, e5, ?_, ?_⟩
      · intro st3 hscan
        simp only [pollCycle]
        rw [if_pos hcount, e2]
        simp only [hscan]
      · rcases e6 with ⟨h1, h2, h3, h4⟩ | ⟨h1, h2, h3⟩
        · exact Or.inl ⟨h1, h2, h3, h4⟩
        · exact Or.inr ⟨h1, h2, h3⟩
    · left
      constructor
      · by_contra h0
        apply hcount
        rw [hpd1]
        exact eventCount_pos_of_head _ _ h0
      · simp only [pollCycle]
        rw [if_neg hcount, hpd]

theorem accepted_of_nonneg (handles : List Int) (h : ∀ x ∈ handles, 0 ≤ x) :
    accepted handles = handles ∧ acceptFailure handles = -1 := by
  induction handles with
  | nil => exact ⟨rfl, rfl⟩
  | cons a t ih =>
    have ha : ¬ a < 0 := by
      have := h a (List.mem_cons_self _ _)
      omega
    obtain ⟨h1, h2⟩ := ih (fun x hx => h x (List.mem_cons_of_mem _ hx))
    simp only [accepted, acceptFailure, ha, if_false, h1, h2, and_self]


/-! ## The registry: sequences of operations, swap-removal, the hook, the port -/

theorem applyOps_invariant (ops : List Op) :
    ∀ st, IndexInvariant st → validOps st.sessions.length ops = true →
      ∃ st', applyOps st ops = some st' ∧ IndexInvariant st' := by
  induction ops with
  | nil => intro st hinv _; exact ⟨st, rfl, hinv⟩
  | cons op ops ih =>
    intro st hinv hvalid
    cases op with
    | insert handle =>
      simp only [validOps] at hvalid
      have hlen : (createSession st handle).sessions.length = st.sessions.length + 1 := by
        simp [createSession, Listener.emit]
      obtain ⟨st', h1, h2⟩ := ih (createSession st handle)
        (createSession_invariant st handle hinv) (by rw [hlen]; exact hvalid)
      exact ⟨st', by simp only [applyOps, applyOp]; exact h1, h2⟩
    | remove index =>
      simp only [validOps, Bool.and_eq_true, decide_eq_true_eq] at hvalid
      obtain ⟨hidx, hrest⟩ := hvalid
      obtain ⟨st1, h1, h2, h3⟩ := destroySession_invariant st index hinv hidx
      have hlen : st1.sessions.length = st.sessions.length - 1 := by omega
      obtain ⟨st', h4, h5⟩ := ih st1 h2 (by rw [hlen]; exact hrest)
      exact ⟨st', by simp only [applyOps, applyOp, h1]; exact h4, h5⟩

theorem validOps_take (ops : List Op) :
    ∀ n k, validOps n ops = true → validOps n (ops.take k) = true := by
  induction ops with
  | nil => intro n k h; simp [validOps]
  | cons op ops ih =>
    intro n k h
    cases k with
    | zero => simp [validOps]
    | succ k =>
      cases op with
      | insert handle =>
        simp only [validOps, List.take_succ_cons] at h ⊢
        exact ih _ k h
      | remove index =>
        simp only [validOps, List.take_succ_cons, Bool.and_eq_true, decide_eq_true_eq] at h ⊢
        exact ⟨h.1, ih _ k h.2⟩

/-- C1 (index invariant): starting from the registry the constructor builds (no session, the
listening descriptor in slot 0), for every finite sequence of `Insert(handle)` and
`Remove(index)` in which every index is below the session count of its moment, every
initial part of the sequence runs without an access outside a vector and leaves a registry
with one descriptor more than sessions in which, for every slot `i`, the stored index of the
session is `i` and the descriptor in position `i + 1` carries the handle of the session. -/
theorem index_invariant_all_sequences (listenHandle : Int) (ops : List Op)
    (hvalid : validOps 0 ops = true) (k : Nat) :
    ∃ st, applyOps (Listener.construct listenHandle) (ops.take k) = some st ∧
      IndexInvariant st :=
  applyOps_invariant (ops.take k) (Listener.construct listenHandle)
    (construct_invariant listenHandle) (validOps_take ops 0 k hvalid)

/-- C2 (swap-remove result): on every registry that satisfies the index invariant, with `n`
sessions and `i < n`, `Remove(i)` succeeds and leaves `n - 1` sessions and `n` descriptors; the
listening descriptor in slot 0 is unchanged; if `i = n - 1` every remaining slot is unchanged;
otherwise slot `i` holds the formerly last session with its stored index changed from `n - 1`
to `i`, position `i + 1` holds the formerly last descriptor, and every other slot keeps its
session and its descriptor. Inserting A, B, C and removing index 0 leaves exactly C with
index 0 followed by B with index 1. -/
theorem swap_remove_result (st : Listener) (i : Nat) (hinv : IndexInvariant st)
    (hi : i < st.sessions.length) :
    (∃ st' last lastDescriptor,
      destroySession st i = some st' ∧
      st.sessions[st.sessions.length - 1]? = some last ∧
      st.pollDescriptors[st.sessions.length]? = some lastDescriptor ∧
      st'.sessions.length = st.sessions.length - 1 ∧
      st'.pollDescriptors.length = st.sessions.length ∧
      st'.pollDescriptors[0]? = st.pollDescriptors[0]? ∧
      (i = st.sessions.length - 1 → ∀ j, j < st.sessions.length - 1 →
        st'.sessions[j]? = st.sessions[j]? ∧
        st'.pollDescriptors[j + 1]? = st.pollDescriptors[j + 1]?) ∧
      (i ≠ st.sessions.length - 1 →
        last.index = st.sessions.length - 1 ∧
        st'.sessions[i]? = some { last with index := i } ∧
        st'.pollDescriptors[i + 1]? = some lastDescriptor ∧
        ∀ j, j < st.sessions.length - 1 → j ≠ i →
          st'.sessions[j]? = st.sessions[j]? ∧
          st'.pollDescriptors[j + 1]? = st.pollDescriptors[j + 1]?)) ∧
    (destroySession exampleABC 0).map Listener.sessions =
      some [{ socket := 12, index := 0 }, { socket := 11, index := 1 }] := by
  refine ⟨?_, by decide⟩
  obtain ⟨hlen, hslot⟩ := hinv
  obtain ⟨removed, last, lastD, hrem, hlast, hlastD, heq⟩ := destroySession_eq st i hlen hi
  have hremidx : removed.index = i := by
    have := (hslot i hi).1
    rw [hrem] at this
    simpa using this
  have hlastidx : last.index = st.sessions.length - 1 := by
    have := (hslot (st.sessions.length - 1) (by omega)).1
    rw [hlast] at this
    simpa using this
  have hother : ∀ j, j < st.sessions.length - 1 → j ≠ i →
      ((st.sessions.set i { last with index := removed.index }).dropLast)[j]? =
        st.sessions[j]? ∧
      ((st.pollDescriptors.set (i + 1) lastD).dropLast)[j + 1]? =
        st.pollDescriptors[j + 1]? := by
    intro j hj hji
    simp only [List.getElem?_dropLast, List.length_set]
    rw [if_pos hj, if_pos (by omega), List.getElem?_set_ne (by omega),
      List.getElem?_set_ne (by omega)]
    exact ⟨rfl, rfl⟩
  refine ⟨_, last, lastD, heq, hlast, hlastD, ?_, ?_, ?_, ?_, ?_⟩
  · simp only [List.length_dropLast, List.length_set]
  · simp only [List.length_dropLast, List.length_set]; omega
  · simp only [List.getElem?_dropLast, List.length_set]
    rw [if_pos (by omega), List.getElem?_set_ne (by omega)]
  · intro hlasti j hj
    exact hother j hj (by omega)
  · intro hne
    refine ⟨hlastidx, ?_, ?_, hother⟩
    · simp only [List.getElem?_dropLast, List.length_set]
      rw [if_pos (by omega), List.getElem?_set, if_pos rfl, if_pos hi, hremidx]
    · simp only [List.getElem?_dropLast, List.length_set]
      rw [if_pos (by omega), List.getElem?_set, if_pos rfl, if_pos (by omega)]

/-- C5, as amended (the hook runs before registration): every `createSession` calls
`sessionCreated` exactly once, on a session that already carries its handle and the stored
index `sessions.size()`; during the call both vectors are still as they were before the
insertion, so the position of its stored index holds no session yet and the call does not
find the session registered; when `createSession` returns, the session and its descriptor are
the last entries of the two vectors. -/
theorem sessionCreated_before_registration (st : Listener) (socket : Int) :
    (createSession st socket).log =
      st.log ++ [Event.sessionCreated { socket := socket, index := st.sessions.length }
        st.sessions st.pollDescriptors] ∧
    st.sessions[st.sessions.length]? = none ∧
    ¬ RegisteredAtCall (Event.sessionCreated { socket := socket, index := st.sessions.length }
        st.sessions st.pollDescriptors) ∧
    (createSession st socket).sessions =
      st.sessions ++ [{ socket := socket, index := st.sessions.length }] ∧
    (createSession st socket).pollDescriptors =
      st.pollDescriptors ++ [{ fd := socket, events := PollInFlag, revents := 0 }] :=
  ⟨rfl, List.getElem?_eq_none (Nat.le_refl _),
    fun h => by
      have h1 := h.1
      rw [List.getElem?_eq_none (Nat.le_refl _)] at h1
      exact Option.noConfusion h1,
    rfl, rfl⟩

/-- C6 (port encoding): for every 16-bit port `p`, the value stored in `sin_port` is the byte
swap of `p`, that is `(p mod 256) * 256 + p div 256`; for the port 8080 of the test it is
`0x901F`. -/
theorem port_encoding (p : Nat) (hp : p < 65536) :
    sinPort p = ((p % 256 * 256 + p / 256 : Nat) : Int) ∧ sinPort 8080 = 0x901F := by
  refine ⟨?_, by decide⟩
  unfold sinPort toInt16
  simp only [Nat.shiftRight_eq_div_pow, Nat.shiftLeft_eq]
  push_cast
  split <;> omega


theorem shutDownOnce_after_accepts (fd : Int) (evs new : List Event)
    (hevs : ∀ e ∈ evs, e.isScanEvent = false) (h : ShutDownOnce fd new) :
    ShutDownOnce fd (evs ++ new) := by
  obtain ⟨hdata, hcount, pre, post, s, hs, hnew⟩ := h
  refine ⟨?_, ?_, evs ++ pre, post, s, hs, by rw [hnew]; simp⟩
  · intro s1 r hmem
    rcases List.mem_append.mp hmem with hmem | hmem
    · have := hevs _ hmem
      simp [Event.isScanEvent] at this
    · exact hdata s1 r hmem
  · rw [List.count_append, hcount]
    have : Event.close fd ∉ evs := by
      intro hmem
      have := hevs _ hmem
      simp [Event.isScanEvent] at this
    rw [List.count_eq_zero_of_not_mem this]

/-- C3 (closed on end of stream): on every registry that satisfies the index invariant, where
the handles of the descriptors and the handles returned by `accept` in this cycle are pairwise
distinct, every cycle with a successful `poll` completes, and for every handle `fd` on which a
read of the cycle returned zero: afterwards neither a session nor a descriptor with handle `fd`
is in the registry, no `dataReceived` was invoked for a session with that handle, and the
cycle called `close(fd)` exactly once, right after the read and right before the session was
released. -/
theorem closed_on_eof (env : Env) (obs : Nat → Nat) (results : List Int) (st : Listener)
    (hinv : IndexInvariant st)
    (hnodup : (st.pollDescriptors.map PollFd.fd ++ accepted results).Nodup) :
    ∃ st' new, pollCycle env (some obs) results st = Cycle.completed st' ∧
      st'.log = st.log ++ new ∧
      ∀ fd, Event.recv fd 0 ∈ new → Unregistered fd st' ∧ ShutDownOnce fd new := by
  obtain ⟨d0, ds, hpd, hcase⟩ := pollCycle_cases env obs results st hinv
  rcases hcase with ⟨-, hrun⟩ | ⟨st2, evs, hinv2, hlog2, hevs, hrun, hmask⟩
  · exact ⟨_, [], hrun, by simp, by simp⟩
  · have hnd2 : (st2.pollDescriptors.map PollFd.fd).Nodup := by
      rw [hpd] at hnodup
      rcases hmask with ⟨-, h2, -, -⟩ | ⟨-, -, h2⟩
      · rw [h2]
        simp only [List.map_cons, List.map_append, setRevents_map_fd, List.map_map]
        have e : (PollFd.fd ∘ newDescriptor) = id := by
          funext x; rfl
        rw [e, List.map_id]
        simpa using hnodup
      · rw [h2]
        simp only [List.map_cons, setRevents_map_fd]
        have := List.Nodup.sublist (List.sublist_append_left _ _) hnodup
        simpa using this
    obtain ⟨st', new, hscan, -, hlog, -, hB⟩ := scan_zero_read_shutdown env st2 hinv2 hnd2
    refine ⟨st', evs ++ new, hrun st' hscan, by rw [hlog, hlog2, List.append_assoc], ?_⟩
    intro fd hmem
    have hin : Event.recv fd 0 ∈ new := by
      rcases List.mem_append.mp hmem with h | h
      · have := hevs _ h
        simp [Event.isScanEvent] at this
      · exact h
    obtain ⟨hu, hs⟩ := hB fd hin
    exact ⟨hu, shutDownOnce_after_accepts fd evs new hevs hs⟩

/-- C4 (drain-to-empty accept): on every registry that satisfies the index invariant, in a
cycle where `poll` reports the mask `PollInFlag` for the listening descriptor and `accept`
yields the handles `handles` (all non-negative) before failing, the cycle completes and its
events split into an accept part followed by a scan part: the accept part holds no read and no
data event, its `sessionCreated` calls are exactly one per handle, in accept order, with the
stored indices `oldSize`, `oldSize + 1`, ...; the scan part holds no `accept` and no
`sessionCreated`, and no event of it concerns a new handle (one that no session of the
registry had before the cycle). -/
theorem drain_to_empty_accept (env : Env) (obs : Nat → Nat) (handles : List Int)
    (st : Listener) (hinv : IndexInvariant st) (hobs : obs 0 = PollInFlag)
    (hpos : ∀ h ∈ handles, 0 ≤ h) :
    ∃ st' acceptPart scanPart,
      pollCycle env (some obs) handles st = Cycle.completed st' ∧
      st'.log = st.log ++ acceptPart ++ scanPart ∧
      createdSessions acceptPart = insertedSessions st.sessions.length handles ∧
      acceptResults acceptPart = handles ++ [-1] ∧
      (∀ e ∈ acceptPart, e.isScanEvent = false) ∧
      (∀ e ∈ scanPart, e.isScanEvent = true) ∧
      (∀ h ∈ handles, h ∉ st.sessions.map ISession.socket →
        ∀ e ∈ scanPart, e.onHandle h = false) := by
  obtain ⟨hacc, hfail⟩ := accepted_of_nonneg handles hpos
  obtain ⟨d0, ds, hpd, hcase⟩ := pollCycle_cases env obs handles st hinv
  rcases hcase with ⟨h0, -⟩ | ⟨st2, evs, hinv2, hlog2, hevs, hrun, hmask⟩
  · rw [hobs] at h0
    exact absurd h0 (by decide)
  · rcases hmask with ⟨-, h2, h3, h4⟩ | ⟨hne, -, -⟩
    · rw [hacc] at h2 h3 h4
      rw [hfail] at h4
      have hS : ∀ d ∈ st2.pollDescriptors, d.revents ≠ 0 →
          d.fd ∈ st.sessions.map ISession.socket := by
        intro d hd hr
        rw [h2] at hd
        simp only [List.mem_cons, List.mem_append, List.mem_map] at hd
        rcases hd with hd | hd | ⟨x, -, hd⟩
        · subst hd
          exact absurd rfl hr
        · rw [invariant_handles st hinv, hpd, List.tail_cons, ← setRevents_map_fd obs 1 ds]
          exact List.mem_map_of_mem _ hd
        · subst hd
          exact absurd rfl hr
      obtain ⟨st', new, hscan, -, hlog, hev⟩ :=
        scan_only_ready env st2 (fun g => g ∈ st.sessions.map ISession.socket) hinv2 hS
      refine ⟨st', evs, new, hrun st' hscan, by rw [hlog, hlog2], h3, h4, hevs,
        fun e he => (hev e he).1, ?_⟩
      intro h _ hfresh e he
      cases hval : e.onHandle h with
      | false => rfl
      | true => exact absurd ((hev e he).2 h hval) hfresh
    · exact absurd hobs hne

/-- C9, as amended (accept trigger): on every registry that satisfies the index invariant, a
cycle with a successful `poll` completes; when the observed mask of the listening descriptor
equals `PollInFlag` (and only then) the accept loop runs: `accept` is called until it fails
and every handle returned before the failure is registered by one `createSession`, in order;
for every other mask, also one that has the `PollInFlag` bit together with other bits, the
cycle calls neither `accept` nor `sessionCreated`. -/
theorem accept_trigger_exact_mask (env : Env) (obs : Nat → Nat) (results : List Int)
    (st : Listener) (hinv : IndexInvariant st) :
    ∃ st' acceptPart scanPart,
      pollCycle env (some obs) results st = Cycle.completed st' ∧
      st'.log = st.log ++ acceptPart ++ scanPart ∧
      (∀ e ∈ scanPart, e.isScanEvent = true) ∧
      (obs 0 = PollInFlag →
        acceptResults acceptPart = accepted results ++ [acceptFailure results] ∧
        createdSessions acceptPart =
          insertedSessions st.sessions.length (accepted results) ∧
        ∀ e ∈ acceptPart, e.isScanEvent = false) ∧
      (obs 0 ≠ PollInFlag → acceptPart = []) := by
  obtain ⟨d0, ds, hpd, hcase⟩ := pollCycle_cases env obs results st hinv
  rcases hcase with ⟨h0, hrun⟩ | ⟨st2, evs, hinv2, hlog2, hevs, hrun, hmask⟩
  · refine ⟨_, [], [], hrun, by simp, by simp, ?_, fun _ => rfl⟩
    intro h
    rw [h] at h0
    exact absurd h0 (by decide)
  · obtain ⟨st', new, hscan, -, hlog, hev⟩ :=
      scan_only_ready env st2 (fun _ => True) hinv2 (fun _ _ _ => trivial)
    refine ⟨st', evs, new, hrun st' hscan, by rw [hlog, hlog2],
      fun e he => (hev e he).1, ?_, ?_⟩
    · intro h
      rcases hmask with ⟨-, -, h3, h4⟩ | ⟨hne, -, -⟩
      · exact ⟨h4, h3, hevs⟩
      · exact absurd h hne
    · intro h
      rcases hmask with ⟨heq, -, -, -⟩ | ⟨-, h2, -⟩
      · exact absurd heq h
      · exact h2


/-- C7 (no skip after a removal for end of stream): on every registry that satisfies the index
invariant, for every assignment of observed masks and read results, when no `dataReceived`
hook requests closure, the scan ends and the handles on which it calls `recv` are, counted
with multiplicity, exactly the handles of the sessions whose descriptor had a non-empty
observed mask when the scan started: one read for each such session, none for the others. -/
theorem scan_reads_each_ready_session_once (env : Env) (st : Listener)
    (hinv : IndexInvariant st) (hno : ∀ t fd, env.closes t fd = false) :
    ∃ st' new, scan env st = some st' ∧ st'.log = st.log ++ new ∧
      (readHandles new).Perm (readyHandles st) ∧
      ∀ fd, (readHandles new).count fd = (readyHandles st).count fd := by
  obtain ⟨i', st', hrun, -, ⟨new, hlog, hperm⟩, hend⟩ :=
    scan_rule env
      (fun i st1 => ∃ new, st1.log = st.log ++ new ∧
        (readHandles new ++ pendingHandles i st1).Perm (readyHandles st))
      st hinv
      ⟨[], by simp, by
        rw [readyHandles_eq_pendingHandles st hinv]
        exact List.Perm.refl _⟩
      (by
        intro i st1 h1 h2 ⟨new, hlog, hperm⟩ hi
        obtain ⟨d, s, i', st', evs, hd, -, hfd, hb, hinv', hi', hdec, hlog', hcase⟩ :=
          scanBody_step env i st1 h1 h2 hi
        refine ⟨i', st', hb, hinv', hi', ⟨new ++ evs, ?_, ?_⟩, hdec⟩
        · rw [hlog', hlog, List.append_assoc]
        · rcases hcase with ⟨hr, hevs, hi'', hpd⟩ | ⟨hr, -, hevs, hi'', hpd⟩ |
            ⟨hr, -, -, hevs, hi'', hpd⟩ | ⟨-, -, hc, -⟩ | ⟨hr, -, hevs, hi'', -, hdrop⟩
          · subst hevs hi''
            have e : pendingHandles (i + 1) st' = pendingHandles (i + 1) st1 := by
              unfold pendingHandles; rw [hpd]
            rw [e, ← pendingHandles_skip i st1 d hd hr, List.append_nil]
            exact hperm
          · subst hevs hi''
            have e : pendingHandles (i + 1) st' = pendingHandles (i + 1) st1 := by
              unfold pendingHandles; rw [hpd]
            rw [pendingHandles_visit i st1 d hd hr, hfd] at hperm
            rw [e, readHandles_append]
            simpa [readHandles] using hperm
          · subst hevs hi''
            have e : pendingHandles (i + 1) st' = pendingHandles (i + 1) st1 := by
              unfold pendingHandles; rw [hpd]
            rw [pendingHandles_visit i st1 d hd hr, hfd] at hperm
            rw [e, readHandles_append]
            simpa [readHandles] using hperm
          · rw [hno] at hc
            exact absurd hc (by simp)
          · subst hevs hi''
            rw [pendingHandles_visit i' st1 d hd hr, hfd] at hperm
            have e := pendingHandles_perm (i' + 1) i' st1 st' hdrop
            rw [readHandles_append]
            have e2 : (readHandles new ++ readHandles [Event.recv s.socket 0,
                Event.close s.socket, Event.sessionDestroyed s] ++ pendingHandles i' st').Perm
                (readHandles new ++ s.socket :: pendingHandles (i' + 1) st1) := by
              simp only [readHandles, List.filterMap_cons, List.filterMap_nil,
                List.append_assoc, List.singleton_append]
              exact (e.cons s.socket).append_left _
            exact e2.trans hperm)
  rw [pendingHandles_of_le i' st' hend, List.append_nil] at hperm
  exact ⟨st', new, hrun, hlog, hperm, fun fd => hperm.count_eq fd⟩


/-- C10 (scan index safety): on every registry that satisfies the index invariant, for every
assignment of observed masks, read results and closure requests, the session scan makes no
access outside a vector (the model returns `some`), the index invariant holds again when the
scan ends, and the descriptor count is enough fuel (more fuel gives the same result). -/
theorem scan_index_safety (env : Env) (st : Listener) (hinv : IndexInvariant st) :
    ∃ st', scan env st = some st' ∧ IndexInvariant st' ∧
      ∀ fuel, st.pollDescriptors.length ≤ fuel → scanLoop env fuel 1 st = some st' := by
  obtain ⟨i', st', hrun, hinv', -, -⟩ :=
    scan_rule env (fun _ _ => True) st hinv trivial
      (by
        intro i st1 h1 h2 _ hi
        obtain ⟨d, s, i', st', evs, -, -, -, hb, hinv', hi', hdec, -, -⟩ :=
          scanBody_step env i st1 h1 h2 hi
        exact ⟨i', st', hb, hinv', hi', trivial, hdec⟩)
  exact ⟨st', hrun, hinv', fun fuel hle => scanLoop_fuel_le env _ fuel 1 st st' hle hrun⟩


/-! ## Concrete runs -/

/-- Witness of C1: insert A, B, C, remove index 0, insert D; after the first four operations
the registry is well-formed. -/
theorem index_invariant_all_sequences_witness :
    validOps 0 [Op.insert 10, Op.insert 11, Op.insert 12, Op.remove 0, Op.insert 13] = true ∧
    ∃ st, applyOps (Listener.construct 3)
        ([Op.insert 10, Op.insert 11, Op.insert 12, Op.remove 0, Op.insert 13].take 4) =
          some st ∧ IndexInvariant st :=
  ⟨by decide, index_invariant_all_sequences 3
    [Op.insert 10, Op.insert 11, Op.insert 12, Op.remove 0, Op.insert 13] (by decide) 4⟩

/-- Witness of C2: the registry with the sessions A, B, C and the removal of index 0. -/
theorem swap_remove_result_witness :
    IndexInvariant exampleABC ∧ 0 < exampleABC.sessions.length ∧
    (∃ st' last lastDescriptor,
      destroySession exampleABC 0 = some st' ∧
      exampleABC.sessions[exampleABC.sessions.length - 1]? = some last ∧
      exampleABC.pollDescriptors[exampleABC.sessions.length]? = some lastDescriptor ∧
      st'.sessions.length = exampleABC.sessions.length - 1 ∧
      st'.pollDescriptors.length = exampleABC.sessions.length ∧
      st'.pollDescriptors[0]? = exampleABC.pollDescriptors[0]? ∧
      (0 = exampleABC.sessions.length - 1 → ∀ j, j < exampleABC.sessions.length - 1 →
        st'.sessions[j]? = exampleABC.sessions[j]? ∧
        st'.pollDescriptors[j + 1]? = exampleABC.pollDescriptors[j + 1]?) ∧
      (0 ≠ exampleABC.sessions.length - 1 →
        last.index = exampleABC.sessions.length - 1 ∧
        st'.sessions[0]? = some { last with index := 0 } ∧
        st'.pollDescriptors[0 + 1]? = some lastDescriptor ∧
        ∀ j, j < exampleABC.sessions.length - 1 → j ≠ 0 →
          st'.sessions[j]? = exampleABC.sessions[j]? ∧
          st'.pollDescriptors[j + 1]? = exampleABC.pollDescriptors[j + 1]?)) ∧
    (destroySession exampleABC 0).map Listener.sessions =
      some [{ socket := 12, index := 0 }, { socket := 11, index := 1 }] :=
  ⟨by decide, by decide, swap_remove_result exampleABC 0 (by decide) (by decide)⟩

/-- Witness of C3: the sessions A, B, C are all readable and the read on A returns zero. -/
theorem closed_on_eof_witness :
    IndexInvariant exampleABC ∧
    (exampleABC.pollDescriptors.map PollFd.fd ++ accepted [20]).Nodup ∧
    ∃ st' new, pollCycle eofEnv (some (fun _ => PollInFlag)) [20] exampleABC =
        Cycle.completed st' ∧
      st'.log = exampleABC.log ++ new ∧
      ∀ fd, Event.recv fd 0 ∈ new → Unregistered fd st' ∧ ShutDownOnce fd new :=
  ⟨by decide, by decide,
    closed_on_eof eofEnv (fun _ => PollInFlag) [20] exampleABC (by decide) (by decide)⟩

/-- Witness of C4: two pending connections on the registry with the sessions A, B, C. -/
theorem drain_to_empty_accept_witness :
    IndexInvariant exampleABC ∧ (∀ h ∈ [20, 21], (0 : Int) ≤ h) ∧
    ∃ st' acceptPart scanPart,
      pollCycle eofEnv (some (fun _ => PollInFlag)) [20, 21] exampleABC =
        Cycle.completed st' ∧
      st'.log = exampleABC.log ++ acceptPart ++ scanPart ∧
      createdSessions acceptPart = insertedSessions exampleABC.sessions.length [20, 21] ∧
      acceptResults acceptPart = [20, 21] ++ [-1] ∧
      (∀ e ∈ acceptPart, e.isScanEvent = false) ∧
      (∀ e ∈ scanPart, e.isScanEvent = true) ∧
      (∀ h ∈ [20, 21], h ∉ exampleABC.sessions.map ISession.socket →
        ∀ e ∈ scanPart, e.onHandle h = false) :=
  ⟨by decide, by decide,
    drain_to_empty_accept eofEnv (fun _ => PollInFlag) [20, 21] exampleABC
      (by decide) rfl (by decide)⟩

/-- Counterexample to C5: in the first insertion the hook is called while the session vector
is empty, so the session is not stored at its index during the call. -/
theorem sessionCreated_registered_counterexample :
    ¬ ∀ e ∈ (createSession (Listener.construct 3) 10).log, RegisteredAtCall e := by
  intro h
  have h1 := h (Event.sessionCreated { socket := 10, index := 0 } []
    [{ fd := 3, events := PollInFlag, revents := 0 }]) (by decide)
  simp [RegisteredAtCall] at h1

/-- Witness of C6: the port of the test. -/
theorem port_encoding_witness :
    (8080 : Nat) < 65536 ∧
    sinPort 8080 = ((8080 % 256 * 256 + 8080 / 256 : Nat) : Int) ∧ sinPort 8080 = 0x901F :=
  ⟨by decide, port_encoding 8080 (by decide)⟩

/-- Witness of C7: the sessions A, B, C are all readable and the read on A returns zero. -/
theorem scan_reads_each_ready_session_once_witness :
    IndexInvariant exampleReady ∧ (∀ t fd, eofEnv.closes t fd = false) ∧
    ∃ st' new, scan eofEnv exampleReady = some st' ∧ st'.log = exampleReady.log ++ new ∧
      (readHandles new).Perm (readyHandles exampleReady) ∧
      ∀ fd, (readHandles new).count fd = (readyHandles exampleReady).count fd :=
  ⟨by decide, fun _ _ => rfl,
    scan_reads_each_ready_session_once eofEnv exampleReady (by decide) (fun _ _ => rfl)⟩

/-- C8 fails on the code: A, B, C are all readable and A closes itself in `dataReceived`.
C is swapped into the slot of A and the scan moves on to the next position: it reads A and B
and ends without a read on C, whose descriptor had a non-empty observed mask. -/
theorem close_request_skips_swapped_session :
    IndexInvariant exampleReady ∧
    readyHandles exampleReady = [10, 11, 12] ∧
    ∃ st', scan closingEnv exampleReady = some st' ∧
      st'.sessions = [{ socket := 12, index := 0 }, { socket := 11, index := 1 }] ∧
      readHandles (st'.log.drop exampleReady.log.length) = [10, 11] :=
  ⟨by decide, by decide, _, rfl, rfl, rfl⟩

/-- Counterexample to C9: the observed mask 9 of the listening descriptor has the
`PollInFlag` bit and one more bit; one connection is pending; the cycle completes without
a call of `accept` and without a new session. -/
theorem accept_trigger_counterexample :
    (9 &&& PollInFlag = PollInFlag) ∧
    ∃ st', pollCycle eofEnv (some (fun k => if k = 0 then 9 else 0)) [20]
        (Listener.construct 3) = Cycle.completed st' ∧
      st'.sessions = [] ∧ acceptResults st'.log = [] ∧ createdSessions st'.log = [] :=
  ⟨by decide, _, rfl, rfl, rfl, rfl⟩

/-- Witness of C9 as amended: the mask `PollInFlag` with one pending connection. -/
theorem accept_trigger_exact_mask_witness :
    IndexInvariant (Listener.construct 3) ∧
    ∃ st' acceptPart scanPart,
      pollCycle eofEnv (some (fun _ => PollInFlag)) [20] (Listener.construct 3) =
        Cycle.completed st' ∧
      st'.log = (Listener.construct 3).log ++ acceptPart ++ scanPart ∧
      (∀ e ∈ scanPart, e.isScanEvent = true) ∧
      ((fun _ => PollInFlag) 0 = PollInFlag →
        acceptResults acceptPart = accepted [20] ++ [acceptFailure [20]] ∧
        createdSessions acceptPart =
          insertedSessions (Listener.construct 3).sessions.length (accepted [20]) ∧
        ∀ e ∈ acceptPart, e.isScanEvent = false) ∧
      ((fun _ => PollInFlag) 0 ≠ PollInFlag → acceptPart = []) :=
  ⟨by decide,
    accept_trigger_exact_mask eofEnv (fun _ => PollInFlag) [20] (Listener.construct 3)
      (by decide)⟩

/-- Witness of C10: the sessions A, B, C are all readable and A closes itself. -/
theorem scan_index_safety_witness :
    IndexInvariant exampleReady ∧
    ∃ st', scan closingEnv exampleReady = some st' ∧ IndexInvariant st' ∧
      ∀ fuel, exampleReady.pollDescriptors.length ≤ fuel →
        scanLoop closingEnv fuel 1 exampleReady = some st' :=
  ⟨by decide, scan_index_safety closingEnv exampleReady (by decide)⟩

end MiniAsio
